import Mathlib

set_option linter.unusedVariables false
set_option maxRecDepth 100000

/-!
Shallow embedding of `src/services/validation/src/ValidationService.ts`.

Modelling conventions:
* JavaScript strings are modelled by Lean `String` (sequences of characters);
  `Buffer` values are modelled by their decoded string content, so
  `buffer.toString()` is the identity.
* `JSON.parse` is modelled by an executable recursive-descent JSON parser over
  an inductive `Json` type.  Number literals are restricted to (signed) integer
  numerals and string escapes to the common single-character escapes; inputs
  outside this fragment are not exercised by any theorem below.  Duplicate
  object keys keep the first position and the last value, as in JavaScript.
* `Web3.utils.keccak256`, zip detection/extraction (`adm-zip`) and the
  filesystem (`fs`) are external npm/runtime dependencies, not code of this
  repository; they are passed to the embedded functions as explicit function
  parameters (`hash`, `isZip`, `members`, `FileSystem`).
* JavaScript objects and `Map`s are modelled by association lists
  `List (String × _)`; `obj[k] = v` / `Map.set` keep the position of an
  existing key and update its value, otherwise append (`setKey`), and reads
  return the first (unique) matching key (`mapGet`).
* Exceptions are modelled with `Except String`; code that cannot throw is pure.
-/

inductive Json where
  | null : Json
  | bool : Bool → Json
  | num : Int → Json
  | str : String → Json
  | arr : List Json → Json
  | obj : List (String × Json) → Json

/-- JavaScript association-list read: first matching key. -/
def mapGet {α : Type} : List (String × α) → String → Option α
  | [], _ => none
  | (k0, v0) :: rest, k => if k0 = k then some v0 else mapGet rest k

/-- JavaScript `obj[k] = v` / `Map.set`: update an existing key in place,
otherwise append at the end. -/
def setKey {α : Type} : List (String × α) → String → α → List (String × α)
  | [], k, v => [(k, v)]
  | (k0, v0) :: rest, k, v =>
    if k0 = k then (k0, v) :: rest else (k0, v0) :: setKey rest k v

/-- Property read `j.key`.  Yields `none` for a missing key and for non-object
bases (JS `undefined`); a property read on JS `null` throws, but every such
read in the modelled code is wrapped in a caught `try` or guarded, and the
overall outcome agrees with `none`. -/
def jsGet : Json → String → Option Json
  | Json.obj fs, key => mapGet fs key
  | _, _ => none

/-- Property read expected to be a string; non-string values are outside the
modelled domain of the relevant metadata fields. -/
def jsGetStr (j : Json) (key : String) : Option String :=
  match jsGet j key with
  | some (Json.str s) => some s
  | _ => none

/-- JavaScript truthiness of a parsed JSON value. -/
def jsTruthy : Json → Bool
  | Json.null => false
  | Json.bool b => b
  | Json.num n => n ≠ 0
  | Json.str s => s ≠ ""
  | Json.arr _ => true
  | Json.obj _ => true

/-- The `for (const k in o)` iteration domain: own enumerable fields of an
object, in insertion order; primitives, `null`/`undefined` iterate nothing.
(Index iteration over arrays and strings is not exercised here.) -/
def jsObjFields : Option Json → List (String × Json)
  | some (Json.obj fs) => fs
  | _ => []

mutual
/-- JavaScript `String(v)` coercion, as applied by `JSON.parse` to a
non-string argument. -/
def jsToString : Json → String
  | Json.null => "null"
  | Json.bool true => "true"
  | Json.bool false => "false"
  | Json.num n => toString n
  | Json.str s => s
  | Json.arr xs => String.intercalate "," (jsToStringArrElems xs)
  | Json.obj _ => "[object Object]"

/-- Array element coercion inside `Array.prototype.toString`: `null` elements
become the empty string. -/
def jsToStringArrElems : List Json → List String
  | [] => []
  | Json.null :: rest => "" :: jsToStringArrElems rest
  | x :: rest => jsToString x :: jsToStringArrElems rest
end

/-! JSON parser (model of `JSON.parse`). -/

def isJsonWs (c : Char) : Bool := c = ' ' || c = '\n' || c = '\t' || c = '\r'

def skipWs : List Char → List Char
  | [] => []
  | c :: rest => if isJsonWs c then skipWs rest else c :: rest

def lbrace : Char := Char.ofNat 123

def rbrace : Char := Char.ofNat 125

/-- Parse the remainder of a JSON string literal (after the opening quote). -/
def parseStringRest : List Char → Option (List Char × List Char)
  | [] => none
  | c :: rest =>
    if c = '"' then some ([], rest)
    else if c = '\\' then
      match rest with
      | [] => none
      | e :: rest2 =>
        let esc : Option Char :=
          if e = '"' then some '"'
          else if e = '\\' then some '\\'
          else if e = '/' then some '/'
          else if e = 'n' then some '\n'
          else if e = 't' then some '\t'
          else if e = 'r' then some '\r'
          else if e = 'b' then some (Char.ofNat 8)
          else if e = 'f' then some (Char.ofNat 12)
          else none
        match esc with
        | none => none
        | some ch =>
          match parseStringRest rest2 with
          | none => none
          | some (cs, rem) => some (ch :: cs, rem)
    else if c.toNat < 32 then none
    else
      match parseStringRest rest with
      | none => none
      | some (cs, rem) => some (c :: cs, rem)

def takeDigits : List Char → (List Char × List Char)
  | [] => ([], [])
  | c :: rest =>
    if c.isDigit then
      let p := takeDigits rest
      (c :: p.1, p.2)
    else ([], c :: rest)

def digitsToNat (ds : List Char) : Nat :=
  ds.foldl (fun a c => a * 10 + (c.toNat - 48)) 0

def parseNumber : List Char → Option (Json × List Char)
  | [] => none
  | c :: rest =>
    let p := if c = '-' then (true, rest) else (false, c :: rest)
    let q := takeDigits p.2
    if q.1.isEmpty then none
    else
      let n : Int := Int.ofNat (digitsToNat q.1)
      let value := Json.num (if p.1 then -n else n)
      match q.2 with
      | [] => some (value, [])
      | d :: _ =>
        if d = '.' || d = 'e' || d = 'E' then none
        else some (value, q.2)

def startsWithCh : List Char → List Char → Bool
  | [], _ => true
  | _ :: _, [] => false
  | p :: ps, c :: cs => p = c && startsWithCh ps cs

mutual
def parseJsonValue : Nat → List Char → Option (Json × List Char)
  | 0, _ => none
  | fuel + 1, s =>
    match skipWs s with
    | [] => none
    | c :: rest =>
      if c = '"' then
        match parseStringRest rest with
        | none => none
        | some (cs, rem) => some (Json.str (String.mk cs), rem)
      else if c = lbrace then
        match skipWs rest with
        | [] => none
        | c2 :: rest2 =>
          if c2 = rbrace then some (Json.obj [], rest2)
          else parseObjLoop fuel (c2 :: rest2) []
      else if c = '[' then
        match skipWs rest with
        | [] => none
        | c2 :: rest2 =>
          if c2 = ']' then some (Json.arr [], rest2)
          else parseArrLoop fuel (c2 :: rest2) []
      else if startsWithCh ['t', 'r', 'u', 'e'] (c :: rest) then
        some (Json.bool true, rest.drop 3)
      else if startsWithCh ['f', 'a', 'l', 's', 'e'] (c :: rest) then
        some (Json.bool false, rest.drop 4)
      else if startsWithCh ['n', 'u', 'l', 'l'] (c :: rest) then
        some (Json.null, rest.drop 3)
      else parseNumber (c :: rest)

def parseObjLoop : Nat → List Char → List (String × Json) → Option (Json × List Char)
  | 0, _, _ => none
  | fuel + 1, s, acc =>
    match skipWs s with
    | [] => none
    | c :: rest =>
      if c = '"' then
        match parseStringRest rest with
        | none => none
        | some (cs, rem) =>
          match skipWs rem with
          | ':' :: rem2 =>
            match parseJsonValue fuel rem2 with
            | none => none
            | some (v, rem3) =>
              let acc2 := setKey acc (String.mk cs) v
              match skipWs rem3 with
              | ',' :: rem4 => parseObjLoop fuel rem4 acc2
              | d :: rem4 => if d = rbrace then some (Json.obj acc2, rem4) else none
              | [] => none
          | _ => none
      else none

def parseArrLoop : Nat → List Char → List Json → Option (Json × List Char)
  | 0, _, _ => none
  | fuel + 1, s, acc =>
    match parseJsonValue fuel s with
    | none => none
    | some (v, rem) =>
      match skipWs rem with
      | ',' :: rem2 => parseArrLoop fuel rem2 (acc ++ [v])
      | c :: rem2 => if c = ']' then some (Json.arr (acc ++ [v]), rem2) else none
      | [] => none
end

/-- Model of `JSON.parse`: `none` models a thrown `SyntaxError`. -/
def jsonParse (s : String) : Option Json :=
  match parseJsonValue (s.data.length + 1) s.data with
  | none => none
  | some (v, rem) => if (skipWs rem).isEmpty then some v else none

/-! String searching (models of the two regular expressions). -/

def containsSeq : List Char → List Char → Bool
  | pat, [] => startsWithCh pat []
  | pat, c :: rest => startsWithCh pat (c :: rest) || containsSeq pat rest

/-- Model of `String.prototype.match` against a regex that is a plain literal:
does the string contain the literal as a substring. -/
def strContains (s pat : String) : Bool := containsSeq pat.data s.data

/-- The literal inside `HARDHAT_OUTPUT_FORMAT_REGEX`. -/
def HARDHAT_MARKER : String := "\"hh-sol-build-info-1\""

/-- The literal head of `NESTED_METADATA_REGEX` before the lazy `.*?`. -/
def NESTED_PRE : String := "\"\x7b\\\"compiler\\\":\x7b\\\"version\\\""

/-- The literal tail of `NESTED_METADATA_REGEX` after the lazy `.*?`. -/
def NESTED_SUF : String := "\x7d,\\\"version\\\":1\x7d\""

def findOccAux : List Char → List Char → Nat → Option Nat
  | pat, [], i => if startsWithCh pat [] then some i else none
  | pat, c :: rest, i =>
    if startsWithCh pat (c :: rest) then some i else findOccAux pat rest (i + 1)

def isLineTerminator (c : Char) : Bool :=
  c = '\n' || c = '\r' || c.toNat = 8232 || c.toNat = 8233

/-- Model of matching `NESTED_METADATA_REGEX` (leftmost match; the lazy `.*?`
takes the shortest gap, and `.` does not cross line terminators).  Returns the
matched substring (`matchRes[0]`). -/
def nestedTryFrom : Nat → List Char → Option (List Char)
  | 0, _ => none
  | fuel + 1, s =>
    match findOccAux NESTED_PRE.data s 0 with
    | none => none
    | some i =>
      let tailFromP := (s.drop i).drop NESTED_PRE.data.length
      match findOccAux NESTED_SUF.data tailFromP 0 with
      | none => none
      | some j =>
        if (tailFromP.take j).all (fun c => !isLineTerminator c) then
          some ((s.drop i).take (NESTED_PRE.data.length + j + NESTED_SUF.data.length))
        else nestedTryFrom fuel (s.drop (i + 1))

def nestedMetadataMatch (s : String) : Option String :=
  match nestedTryFrom (s.data.length + 1) s.data with
  | none => none
  | some cs => some (String.mk cs)

/-! Data model. -/

structure PathBuffer where
  path : String
  buffer : String
deriving DecidableEq

structure PathContent where
  path : String
  content : String
deriving DecidableEq

abbrev StringMap := List (String × String)

/-- Value stored in `missingSources[path]` by `rearrangeSources`:
`{ keccak256: expectedHash, urls: sourceInfoFromMetadata.urls }`.  The hash is
`none` when the metadata entry has no (string) `keccak256` field. -/
structure MissingValue where
  keccak256 : Option String
  urls : Option Json

/-- Value stored in `invalidSources[path]` by `rearrangeSources`. -/
structure InvalidValue where
  expectedHash : Option String
  calculatedHash : String
  msg : String

/-- Modelled from the spec: the `CheckedContract` class lives in the
`@ethereum-sourcify/core` package, which is not under `src/`.  Per §3 and §4.5
of the spec it owns one metadata document and the three source maps produced by
the resolver; its constructor simply stores them (as is also visible from every
use of `contract.metadata` / `.solidity` / `.missing` / `.invalid` in
`ValidationService.ts`). -/
structure CheckedContract where
  metadata : Json
  solidity : StringMap
  missing : List (String × MissingValue)
  invalid : List (String × InvalidValue)

/-! Document classification. -/

/-- Model of `isMetadata` (ValidationService.ts:347-350):
`obj.language === "Solidity" && !!obj.compiler`. -/
def isMetadata (obj : Json) : Bool :=
  (match jsGet obj "language" with
   | some (Json.str s) => s = "Solidity"
   | _ => false) &&
  (match jsGet obj "compiler" with
   | some v => jsTruthy v
   | none => false)

/-- Model of `extractMetadataFromString` (ValidationService.ts:323-338).
A first parse that yields a non-metadata value is re-parsed once after the
JS string coercion (`JSON.parse(obj)`), which unwraps one level of
string-in-string double encoding; any exception yields `null` (`none`). -/
def extractMetadataFromString (file : String) : Option Json :=
  match jsonParse file with
  | none => none
  | some obj =>
    if isMetadata obj then some obj
    else
      match jsonParse (jsToString obj) with
      | none => none
      | some obj2 => if isMetadata obj2 then some obj2 else none

/-- Model of the guarded call
`this.assertObjectSize(metadata.settings.compilationTarget, 1)` inside the
`try` of `splitFiles` (ValidationService.ts:206-211): `true` means no throw.
A missing or `null` `settings` makes the property read throw; `assertObjectSize`
throws on a falsy argument or a key count different from 1 (`Object.keys`
counts object fields, array slots, or string characters). -/
def jsObjectKeysLength : Json → Nat
  | Json.obj fs => fs.length
  | Json.arr xs => xs.length
  | Json.str s => s.length
  | _ => 0

def compilationTargetCheck (md : Json) : Bool :=
  match jsGet md "settings" with
  | none => false
  | some Json.null => false
  | some settings =>
    match jsGet settings "compilationTarget" with
    | none => false
    | some ct => jsTruthy ct && (jsObjectKeysLength ct == 1)

/-- Model of `extractHardhatMetadataAndSources` (ValidationService.ts:415-440).
`.error` models an uncaught exception: `JSON.parse` throwing, or the property
reads `hardhatJson.input.sources` / `hardhatJson.output.contracts` on a
missing/`null` `input` or `output`.  Note the extracted metadata entries may be
`none` (JS `null`) when the embedded metadata string fails to extract, since
the result of `extractMetadataFromString` is pushed unconditionally. -/
def extractHardhatMetadataAndSources (hardhatFile : PathContent) :
    Except String (List (Option Json) × List PathContent) :=
  match jsonParse hardhatFile.content with
  | none => .error ("SyntaxError: Unexpected token in JSON at " ++ hardhatFile.path)
  | some hardhatJson =>
    match jsGet hardhatJson "input" with
    | none => .error "TypeError: Cannot read properties of undefined (reading sources)"
    | some Json.null => .error "TypeError: Cannot read properties of null (reading sources)"
    | some input =>
      let hardhatSourceFiles := (jsObjFields (jsGet input "sources")).filterMap (fun pv =>
        match jsGetStr pv.2 "content" with
        | some c => if c = "" then none else some (PathContent.mk pv.1 c)
        | none => none)
      match jsGet hardhatJson "output" with
      | none => .error "TypeError: Cannot read properties of undefined (reading contracts)"
      | some Json.null => .error "TypeError: Cannot read properties of null (reading contracts)"
      | some output =>
        let hardhatMetadataFiles := (jsObjFields (jsGet output "contracts")).flatMap
          (fun pathEntry =>
            (jsObjFields (some pathEntry.2)).filterMap (fun contractEntry =>
              match jsGet contractEntry.2 "metadata" with
              | some v =>
                if jsTruthy v then some (extractMetadataFromString (jsToString v)) else none
              | none => none))
        .ok (hardhatMetadataFiles, hardhatSourceFiles)

/-- How the `splitFiles` loop body (ValidationService.ts:188-215) disposes of
one file. -/
inductive FileClass where
  | hhError (e : String)
  | hhOk (mds : List (Option Json)) (srcs : List PathContent)
  | metadataDoc (md : Json)
  | malformedDoc
  | sourceDoc

def classifyFile (f : PathContent) : FileClass :=
  if strContains f.content HARDHAT_MARKER then
    match extractHardhatMetadataAndSources f with
    | .error e => .hhError e
    | .ok (mds, srcs) => .hhOk mds srcs
  else
    let md? := match extractMetadataFromString f.content with
      | some m => some m
      | none =>
        match nestedMetadataMatch f.content with
        | some matched => extractMetadataFromString matched
        | none => none
    match md? with
    | some md => if compilationTargetCheck md then .metadataDoc md else .malformedDoc
    | none => .sourceDoc

def malformedMsg (mals : List String) : String :=
  let responsibleFiles :=
    if mals.all (fun p => p ≠ "") then String.intercalate ", " mals
    else toString mals.length ++ " metadata files"
  "Malformed settings.compilationTarget in: " ++ responsibleFiles

def METADATA_NOT_FOUND_MSG : String :=
  "Metadata file not found. Did you include \"metadata.json\"?"

def splitLoop : List PathContent → List (Option Json) → List PathContent → List String →
    Except String (List (Option Json) × List PathContent × List String)
  | [], mds, srcs, mals => .ok (mds, srcs, mals)
  | f :: rest, mds, srcs, mals =>
    match classifyFile f with
    | .hhError e => .error e
    | .hhOk hmds hsrcs => splitLoop rest (mds ++ hmds) (srcs ++ hsrcs) mals
    | .metadataDoc md => splitLoop rest (mds ++ [some md]) srcs mals
    | .malformedDoc => splitLoop rest mds srcs (mals ++ [f.path])
    | .sourceDoc => splitLoop rest mds (srcs ++ [f]) mals

/-- Model of `splitFiles` (ValidationService.ts:183-234). -/
def splitFiles (files : List PathContent) :
    Except String (List (Option Json) × List PathContent) :=
  match splitLoop files [] [] [] with
  | .error e => .error e
  | .ok (mds, srcs, mals) =>
    if !mals.isEmpty then .error (malformedMsg mals)
    else if mds.isEmpty then .error METADATA_NOT_FOUND_MSG
    else .ok (mds, srcs)

/-! Source resolution. -/

def INVALID_MSG : String :=
  "The keccak256 given in the metadata and the calculated keccak256 of the source content in metadata don\x27t match"

/-- The inline `content` of a metadata source entry, when truthy:
`file.content = sourceInfoFromMetadata.content; if (file.content) ...`.
The empty string is falsy; non-string inline content is outside the modelled
domain of compiler metadata. -/
def inlineContent (info : Json) : Option String :=
  match jsGetStr info "content" with
  | some c => if c = "" then none else some c
  | none => none

/-- Fate of one declared source entry in `rearrangeSources`
(ValidationService.ts:249-277). -/
inductive SourceFate where
  | found (content : String)
  | foundAndUsed (content : String) (providedPath : String)
  | missingAfterHit (providedPath : String) (mv : MissingValue)
  | missingNoHit (mv : MissingValue)
  | invalid (iv : InvalidValue)

def classifySource (hash : String → String) (byHash : List (String × PathContent))
    (info : Json) : SourceFate :=
  let expectedHash := jsGetStr info "keccak256"
  match inlineContent info with
  | some c =>
    let contentHash := hash c
    if some contentHash ≠ expectedHash then
      .invalid (InvalidValue.mk expectedHash contentHash INVALID_MSG)
    else .found c
  | none =>
    match expectedHash with
    | some h =>
      match mapGet byHash h with
      | some pc =>
        if pc.content = "" then
          .missingAfterHit pc.path (MissingValue.mk expectedHash (jsGet info "urls"))
        else .foundAndUsed pc.content pc.path
      | none => .missingNoHit (MissingValue.mk expectedHash (jsGet info "urls"))
    | none => .missingNoHit (MissingValue.mk none (jsGet info "urls"))

structure RearrangedSources where
  foundSources : StringMap
  missingSources : List (String × MissingValue)
  invalidSources : List (String × InvalidValue)
  metadata2provided : StringMap

def rearrangeLoop (hash : String → String) (byHash : List (String × PathContent)) :
    List (String × Json) → RearrangedSources → RearrangedSources
  | [], acc => acc
  | (p, info) :: rest, acc =>
    match classifySource hash byHash info with
    | .found c =>
      rearrangeLoop hash byHash rest
        ⟨setKey acc.foundSources p c, acc.missingSources, acc.invalidSources,
         acc.metadata2provided⟩
    | .foundAndUsed c pp =>
      rearrangeLoop hash byHash rest
        ⟨setKey acc.foundSources p c, acc.missingSources, acc.invalidSources,
         setKey acc.metadata2provided p pp⟩
    | .missingAfterHit pp mv =>
      rearrangeLoop hash byHash rest
        ⟨acc.foundSources, setKey acc.missingSources p mv, acc.invalidSources,
         setKey acc.metadata2provided p pp⟩
    | .missingNoHit mv =>
      rearrangeLoop hash byHash rest
        ⟨acc.foundSources, setKey acc.missingSources p mv, acc.invalidSources,
         acc.metadata2provided⟩
    | .invalid iv =>
      rearrangeLoop hash byHash rest
        ⟨acc.foundSources, acc.missingSources, setKey acc.invalidSources p iv,
         acc.metadata2provided⟩

/-- The iteration domain `for (const sourcePath in metadata.sources)`. -/
def jsSources (metadata : Json) : List (String × Json) :=
  jsObjFields (jsGet metadata "sources")

/-- Model of `rearrangeSources` (ValidationService.ts:243-280). -/
def rearrangeSources (hash : String → String) (metadata : Json)
    (byHash : List (String × PathContent)) : RearrangedSources :=
  rearrangeLoop hash byHash (jsSources metadata) ⟨[], [], [], []⟩

/-! Variation hash index. -/

def forceCRLFCh : List Char → List Char
  | [] => []
  | '\r' :: '\n' :: rest => '\r' :: '\n' :: forceCRLFCh rest
  | '\n' :: rest => '\r' :: '\n' :: forceCRLFCh rest
  | c :: rest => c :: forceCRLFCh rest

def forceLFCh : List Char → List Char
  | [] => []
  | '\r' :: '\n' :: rest => '\n' :: forceLFCh rest
  | c :: rest => c :: forceLFCh rest

/-- `content.replace(/\r?\n/g, "\r\n")`. -/
def forceCRLF (s : String) : String := String.mk (forceCRLFCh s.data)

/-- `content.replace(/\r\n/g, "\n")`. -/
def forceLF (s : String) : String := String.mk (forceLFCh s.data)

/-- JS `trimEnd` whitespace (the forms that occur in source text). -/
def isJsTrimWs (c : Char) : Bool :=
  c = ' ' || c = '\t' || c = '\n' || c = '\r' || c.toNat = 11 || c.toNat = 12 ||
  c.toNat = 160 || c.toNat = 65279 || c.toNat = 8232 || c.toNat = 8233

def trimEnd (s : String) : String :=
  String.mk ((s.data.reverse.dropWhile isJsTrimWs).reverse)

def CONTENT_VARIATORS : List (String → String) :=
  [fun content => content,
   fun content => forceCRLF content,
   fun content => forceLF content]

def ENDING_VARIATORS : List (String → String) :=
  [fun content => content,
   fun content => trimEnd content,
   fun content => trimEnd content ++ "\n",
   fun content => trimEnd content ++ "\r\n",
   fun content => content ++ "\n",
   fun content => content ++ "\r\n"]

/-- Model of `generateVariations` (ValidationService.ts:301-315): the two
nested `for` loops push one variant per (content variator, ending variator)
pair, then every variant is tagged with the original file's path. -/
def generateVariations (pathContent : PathContent) : List PathContent :=
  let variations := CONTENT_VARIATORS.flatMap (fun cv =>
    ENDING_VARIATORS.map (fun ev => ev (cv pathContent.content)))
  variations.map (fun content => PathContent.mk pathContent.path content)

/-- Model of `storeByHash` (ValidationService.ts:288-299). -/
def storeByHash (hash : String → String) (files : List PathContent) :
    List (String × PathContent) :=
  files.foldl (fun byHash pathContent =>
    (generateVariations pathContent).foldl
      (fun bh variation => setKey bh (hash variation.content) variation) byHash) []

/-! Archive expansion. -/

/-- JS `String.prototype.slice(n)`. -/
def sliceFrom (s : String) (n : Nat) : String := String.mk (s.data.drop n)

/-- Model of `unzip` (ValidationService.ts:162-176): `members` is the archive
listing of `adm-zip` (member relative path and content); extraction places a
member at `tmpDir/relativePath` and the traversal re-reads it, so the path
pushed is `filePath.slice(tmpDir.length + 1)`. -/
def unzip (members : String → List PathBuffer) (tmpName : String)
    (zippedFile : PathBuffer) : List PathBuffer :=
  let tmpDir := "tmp-unzipped-" ++ tmpName
  (members zippedFile.buffer).map (fun m =>
    PathBuffer.mk (sliceFrom (tmpDir ++ "/" ++ m.path) (tmpDir.length + 1)) m.buffer)

/-- Model of the `for (const file of files)` loop of `traverseAndUnzipFiles`
(ValidationService.ts:130-141): unzipped members are pushed onto the array
being iterated, hence the worklist.  `fuel` bounds the number of loop steps
(the JS loop can diverge on self-reproducing archives); `tmps` supplies the
random staging-directory suffix of each `unzip` call. -/
def tuzLoop (isZip : String → Bool) (members : String → List PathBuffer)
    (tmps : Nat → String) : Nat → Nat → List PathBuffer → List PathBuffer → List PathBuffer
  | 0, _, acc, _ => acc
  | _ + 1, _, acc, [] => acc
  | fuel + 1, ti, acc, f :: rest =>
    if isZip f.buffer then
      tuzLoop isZip members tmps fuel (ti + 1) acc (rest ++ unzip members (tmps ti) f)
    else
      tuzLoop isZip members tmps fuel ti (acc ++ [f]) rest

def traverseAndUnzipFiles (isZip : String → Bool) (members : String → List PathBuffer)
    (tmps : Nat → String) (fuel : Nat) (files : List PathBuffer) : List PathBuffer :=
  tuzLoop isZip members tmps fuel 0 [] files

/-! The public operations. -/

/-- Model of `pathContentArrayToStringMap` (ValidationService.ts:442-452). -/
def pathContentArrayToStringMap (pathContentArr : List PathContent) : StringMap :=
  pathContentArr.enum.foldl (fun sm ie =>
    if ie.2.path ≠ "" then setKey sm ie.2.path ie.2.content
    else setKey sm ("path-" ++ toString ie.1) ie.2.content) []

/-- JS `Object.assign(target, source)`. -/
def objAssign (target source : StringMap) : StringMap :=
  source.foldl (fun t kv => setKey t kv.1 kv.2) target

def parsedOf (files : List PathBuffer) : List PathContent :=
  files.map (fun pb => PathContent.mk pb.path pb.buffer)

/-- Model of `useAllSources` (ValidationService.ts:79-88). -/
def useAllSources (hash : String → String) (isZip : String → Bool)
    (members : String → List PathBuffer) (tmps : Nat → String) (fuel : Nat)
    (contract : CheckedContract) (files : List PathBuffer) :
    Except String CheckedContract :=
  let unzippedFiles := traverseAndUnzipFiles isZip members tmps fuel files
  let parsedFiles := parsedOf unzippedFiles
  match splitFiles parsedFiles with
  | .error e => .error e
  | .ok (_, sourceFiles) =>
    let stringMapSourceFiles := pathContentArrayToStringMap sourceFiles
    let merged := objAssign stringMapSourceFiles contract.solidity
    .ok (CheckedContract.mk contract.metadata merged contract.missing contract.invalid)

def contractFor (hash : String → String) (byHash : List (String × PathContent))
    (md : Json) : CheckedContract :=
  let r := rearrangeSources hash md byHash
  CheckedContract.mk md r.foundSources r.missingSources r.invalidSources

/-- Model of the `metadataFiles.forEach` loop of `checkFiles`
(ValidationService.ts:101-110); a `null` metadata entry (possible only via
hardhat extraction) makes `metadata.sources` throw. -/
def checkContracts (hash : String → String) (byHash : List (String × PathContent)) :
    List (Option Json) → Except String (List CheckedContract × List String)
  | [] => .ok ([], [])
  | none :: _ => .error "TypeError: Cannot read properties of null (reading sources)"
  | some md :: rest =>
    let r := rearrangeSources hash md byHash
    match checkContracts hash byHash rest with
    | .error e => .error e
    | .ok (cs, used) =>
      .ok (contractFor hash byHash md :: cs, r.metadata2provided.map Prod.snd ++ used)

/-- Model of `extractUnused` (ValidationService.ts:317-321). -/
def extractUnused (inputFiles : List PathContent) (usedFiles : List String) :
    List String :=
  (inputFiles.map (fun pc => pc.path)).filter (fun p => !(usedFiles.contains p))

/-- Model of `checkFiles` (ValidationService.ts:90-122).  The optional `unused`
output array is modelled by the second component of the result (empty when the
caller did not supply one, i.e. `unused = false`). -/
def checkFiles (hash : String → String) (isZip : String → Bool)
    (members : String → List PathBuffer) (tmps : Nat → String) (fuel : Nat)
    (files : List PathBuffer) (unused : Bool) :
    Except String (List CheckedContract × List String) :=
  let unzippedFiles := traverseAndUnzipFiles isZip members tmps fuel files
  let parsedFiles := parsedOf unzippedFiles
  match splitFiles parsedFiles with
  | .error e => .error e
  | .ok (metadataFiles, sourceFiles) =>
    let byHash := storeByHash hash sourceFiles
    match checkContracts hash byHash metadataFiles with
    | .error e => .error e
    | .ok (checkedContracts, usedFiles) =>
      let unusedOut := if unused then extractUnused sourceFiles usedFiles else []
      .ok (checkedContracts, unusedOut)

/-- Abstraction of the `fs` module as used by `checkPaths`: existence test and
the files collected by `traversePathRecursively` from an existing path (with
their resolved full paths). -/
structure FileSystem where
  pathExists : String → Bool
  readTree : String → List PathBuffer

def collectStep (fs : FileSystem) (acc : List PathBuffer × Option (List String))
    (p : String) : List PathBuffer × Option (List String) :=
  if fs.pathExists p then (acc.1 ++ fs.readTree p, acc.2)
  else
    match acc.2 with
    | some ignoring => (acc.1, some (ignoring ++ [p]))
    | none => acc

def existingFiles (fs : FileSystem) (paths : List String) : List PathBuffer :=
  (paths.filter (fun p => fs.pathExists p)).flatMap fs.readTree

/-- Model of `checkPaths` (ValidationService.ts:61-76): each path that exists
is traversed and its files collected; a nonexistent path is pushed onto the
`ignoring` collector when one was supplied.  The collected files are passed to
`checkFiles` (with no `unused` collector). -/
def checkPaths (hash : String → String) (isZip : String → Bool)
    (members : String → List PathBuffer) (tmps : Nat → String) (fuel : Nat)
    (fs : FileSystem) (paths : List String) (ignoring : Option (List String)) :
    Except String (List CheckedContract × List String) × Option (List String) :=
  let collected := paths.foldl (collectStep fs) ([], ignoring)
  (checkFiles hash isZip members tmps fuel collected.1 false, collected.2)

def fateFound : SourceFate → Option String
  | .found c => some c
  | .foundAndUsed c _ => some c
  | .missingAfterHit _ _ => none
  | .missingNoHit _ => none
  | .invalid _ => none

def fateMissing : SourceFate → Option MissingValue
  | .found _ => none
  | .foundAndUsed _ _ => none
  | .missingAfterHit _ mv => some mv
  | .missingNoHit mv => some mv
  | .invalid _ => none

def fateInvalid : SourceFate → Option InvalidValue
  | .found _ => none
  | .foundAndUsed _ _ => none
  | .missingAfterHit _ _ => none
  | .missingNoHit _ => none
  | .invalid iv => some iv

def fateProvided : SourceFate → Option String
  | .found _ => none
  | .foundAndUsed _ pp => some pp
  | .missingAfterHit pp _ => some pp
  | .missingNoHit _ => none
  | .invalid _ => none

def classMd : FileClass → Option Json
  | .hhError _ => none
  | .hhOk _ _ => none
  | .metadataDoc md => some md
  | .malformedDoc => none
  | .sourceDoc => none

def classIsMal : FileClass → Bool
  | .hhError _ => false
  | .hhOk _ _ => false
  | .metadataDoc _ => false
  | .malformedDoc => true
  | .sourceDoc => false

def classIsSrc : FileClass → Bool
  | .hhError _ => false
  | .hhOk _ _ => false
  | .metadataDoc _ => false
  | .malformedDoc => false
  | .sourceDoc => true

def classIsDirect : FileClass → Bool
  | .hhError _ => false
  | .hhOk _ _ => false
  | .metadataDoc _ => true
  | .malformedDoc => true
  | .sourceDoc => true

def usedOf (hash : String → String) (byHash : List (String × PathContent))
    (mds : List Json) : List String :=
  mds.flatMap (fun md => (rearrangeSources hash md byHash).metadata2provided.map Prod.snd)

/-! Concrete fixtures used by witnesses and counterexamples. -/

/-- A toy total hash function standing in for `Web3.utils.keccak256` in
concrete evaluations (the embedding is parametric in the hash function). -/
def hashT : String → String := fun s => "0xh:" ++ s

def noZip : String → Bool := fun _ => false

def noMembers : String → List PathBuffer := fun _ => []

def tmpNames : Nat → String := fun n => toString n

/-- A well-formed metadata document with one compilation target and no
declared sources. -/
def metaContentA : String := "\x7b\"language\":\"Solidity\",\"compiler\":\x7b\"version\":\"0.8.0\"\x7d,\"settings\":\x7b\"compilationTarget\":\x7b\"contracts/A.sol\":\"A\"\x7d\x7d,\"sources\":\x7b\x7d\x7d"

def mdExA : Json :=
  Json.obj [("language", Json.str "Solidity"),
            ("compiler", Json.obj [("version", Json.str "0.8.0")]),
            ("settings", Json.obj [("compilationTarget",
               Json.obj [("contracts/A.sol", Json.str "A")])]),
            ("sources", Json.obj [])]

/-- A metadata document declaring one source that carries no inline content. -/
def metaContentMissing : String := "\x7b\"language\":\"Solidity\",\"compiler\":\x7b\"version\":\"0.8.0\"\x7d,\"settings\":\x7b\"compilationTarget\":\x7b\"contracts/A.sol\":\"A\"\x7d\x7d,\"sources\":\x7b\"contracts/A.sol\":\x7b\"keccak256\":\"0xabc\",\"urls\":[\"dweb:/ipfs/Qm\"]\x7d\x7d\x7d"

def mdExMissing : Json :=
  Json.obj [("language", Json.str "Solidity"),
            ("compiler", Json.obj [("version", Json.str "0.8.0")]),
            ("settings", Json.obj [("compilationTarget",
               Json.obj [("contracts/A.sol", Json.str "A")])]),
            ("sources", Json.obj [("contracts/A.sol",
               Json.obj [("keccak256", Json.str "0xabc"),
                         ("urls", Json.arr [Json.str "dweb:/ipfs/Qm"])])])]

/-- A direct metadata document whose `compilationTarget` has two entries. -/
def badTargetContent : String := "\x7b\"language\":\"Solidity\",\"compiler\":\x7b\"version\":\"0.8.0\"\x7d,\"settings\":\x7b\"compilationTarget\":\x7b\"a.sol\":\"A\",\"b.sol\":\"B\"\x7d\x7d,\"sources\":\x7b\x7d\x7d"

/-- A hardhat build-info file whose embedded metadata string declares two
compilation targets. -/
def hhBadContent : String := "\x7b\"_format\":\"hh-sol-build-info-1\",\"input\":\x7b\"sources\":\x7b\x7d\x7d,\"output\":\x7b\"contracts\":\x7b\"contracts/A.sol\":\x7b\"A\":\x7b\"metadata\":\"\x7b\\\"language\\\":\\\"Solidity\\\",\\\"compiler\\\":\x7b\\\"version\\\":\\\"0.8.2\\\"\x7d,\\\"settings\\\":\x7b\\\"compilationTarget\\\":\x7b\\\"a.sol\\\":\\\"A\\\",\\\"b.sol\\\":\\\"B\\\"\x7d\x7d,\\\"sources\\\":\x7b\x7d\x7d\"\x7d\x7d\x7d\x7d\x7d"

def mdBad : Json :=
  Json.obj [("language", Json.str "Solidity"),
            ("compiler", Json.obj [("version", Json.str "0.8.2")]),
            ("settings", Json.obj [("compilationTarget",
               Json.obj [("a.sol", Json.str "A"), ("b.sol", Json.str "B")])]),
            ("sources", Json.obj [])]

/-- A JSON object that lacks the metadata fields but contains the hardhat
build-report marker as a value. -/
def hhPlain : String := "\x7b\"x\":\"hh-sol-build-info-1\"\x7d"

/-- A double-encoded metadata document: a JSON string literal whose content is
itself the JSON text of a qualifying metadata object. -/
def doubleEnc : String := "\"\x7b\\\"language\\\":\\\"Solidity\\\",\\\"compiler\\\":\x7b\x7d,\\\"settings\\\":\x7b\x7d\x7d\""

def innerStr : String := "\x7b\"language\":\"Solidity\",\"compiler\":\x7b\x7d,\"settings\":\x7b\x7d\x7d"

def innerObj : Json :=
  Json.obj [("language", Json.str "Solidity"), ("compiler", Json.obj []),
            ("settings", Json.obj [])]

/-- Metadata with two declared sources: one with matching inline content, one
with neither inline content nor any matching file. -/
def mdTwoSources : Json :=
  Json.obj [("sources", Json.obj [
    ("a.sol", Json.obj [("keccak256", Json.str (hashT "A")), ("content", Json.str "A")]),
    ("b.sol", Json.obj [("keccak256", Json.str "0xbbb")])])]

/-- Metadata with one declared source whose inline content does not hash to
the declared `keccak256`. -/
def mdInlineBad : Json :=
  Json.obj [("sources", Json.obj [
    ("a.sol", Json.obj [("keccak256", Json.str "0xWRONG"),
                        ("content", Json.str "code")])])]

def infoInlineBad : Json :=
  Json.obj [("keccak256", Json.str "0xWRONG"), ("content", Json.str "code")]

def ghostFS : FileSystem :=
  FileSystem.mk (fun p => p = "real")
    (fun p => if p = "real" then [PathBuffer.mk "real/metadata.json" metaContentA] else [])

def metaFilePB : PathBuffer := PathBuffer.mk "m.json" metaContentA

def srcFilePB : PathBuffer := PathBuffer.mk "a.sol" "contract A"

def contractW : CheckedContract :=
  CheckedContract.mk mdExA [("a.sol", "VERIFIED")] [] []

/-! Association-list lemmas. -/

theorem mapGet_setKey {α : Type} (t : List (String × α)) (k0 k : String) (v : α) :
    mapGet (setKey t k0 v) k = if k0 = k then some v else mapGet t k := by
  induction t with
  | nil => by_cases h : k0 = k <;> simp [setKey, mapGet, h]
  | cons hd tl ih =>
    obtain ⟨k1, v1⟩ := hd
    by_cases h1 : k1 = k0
    · subst h1
      by_cases h2 : k1 = k <;> simp [setKey, mapGet, h2]
    · by_cases h2 : k1 = k
      · subst h2
        simp [setKey, h1, mapGet, Ne.symm h1]
      · simp [setKey, h1, mapGet, h2, ih]

theorem mapGet_append {α : Type} (a b : List (String × α)) (k : String) :
    mapGet (a ++ b) k =
      match mapGet a k with
      | some v => some v
      | none => mapGet b k := by
  induction a with
  | nil => simp [mapGet]
  | cons hd tl ih =>
    obtain ⟨k1, v1⟩ := hd
    by_cases h : k1 = k <;> simp [mapGet, h, ih]

theorem mapGet_eq_none_iff {α : Type} (t : List (String × α)) (k : String) :
    mapGet t k = none ↔ k ∉ t.map Prod.fst := by
  induction t with
  | nil => simp [mapGet]
  | cons hd tl ih =>
    obtain ⟨k1, v1⟩ := hd
    by_cases h : k1 = k
    · subst h
      simp [mapGet]
    · simp only [mapGet, h, if_false, List.map_cons, List.mem_cons]
      rw [ih]
      constructor
      · intro hk hor
        rcases hor with h1 | h2
        · exact h h1.symm
        · exact hk h2
      · intro hall hm
        exact hall (Or.inr hm)

theorem setKey_append_of_mapGet_none {α : Type} (t : List (String × α)) (k : String)
    (v : α) (h : mapGet t k = none) : setKey t k v = t ++ [(k, v)] := by
  induction t with
  | nil => simp [setKey]
  | cons hd tl ih =>
    obtain ⟨k1, v1⟩ := hd
    by_cases h1 : k1 = k
    · simp [mapGet, h1] at h
    · simp [mapGet, h1] at h
      simp [setKey, h1, ih h]

theorem mem_of_mapGet_eq_some {α : Type} (t : List (String × α)) (k : String) (v : α)
    (h : mapGet t k = some v) : (k, v) ∈ t := by
  induction t with
  | nil => simp [mapGet] at h
  | cons hd tl ih =>
    obtain ⟨k1, v1⟩ := hd
    by_cases h1 : k1 = k
    · subst h1
      simp [mapGet] at h
      simp [h]
    · simp [mapGet, h1] at h
      exact List.mem_cons_of_mem _ (ih h)

theorem mapGet_eq_some_of_mem_nodup {α : Type} (t : List (String × α)) (k : String)
    (v : α) (hnd : (t.map Prod.fst).Nodup) (hm : (k, v) ∈ t) : mapGet t k = some v := by
  induction t with
  | nil => simp at hm
  | cons hd tl ih =>
    obtain ⟨k1, v1⟩ := hd
    simp at hnd
    rcases List.mem_cons.mp hm with h | h
    · cases h
      simp [mapGet]
    · have hk : k1 ≠ k := by
        intro hk
        subst hk
        exact hnd.1 v h
      simp [mapGet, hk]
      exact ih hnd.2 h

theorem keys_setKey {α : Type} (t : List (String × α)) (k : String) (v : α) :
    (setKey t k v).map Prod.fst =
      if k ∈ t.map Prod.fst then t.map Prod.fst else t.map Prod.fst ++ [k] := by
  induction t with
  | nil => simp [setKey]
  | cons hd tl ih =>
    obtain ⟨k1, v1⟩ := hd
    by_cases h1 : k1 = k
    · subst h1
      simp [setKey]
    · by_cases h2 : k ∈ tl.map Prod.fst <;>
        simp [setKey, h1, Ne.symm h1, ih, h2]

theorem nodup_keys_setKey {α : Type} (t : List (String × α)) (k : String) (v : α)
    (hnd : (t.map Prod.fst).Nodup) : ((setKey t k v).map Prod.fst).Nodup := by
  rw [keys_setKey]
  by_cases h : k ∈ t.map Prod.fst
  · simpa [h] using hnd
  · simp only [h, if_false]
    exact List.Nodup.append hnd (List.nodup_singleton k) (by simpa using h)

theorem find?_append_eq {α : Type} (a b : List α) (p : α → Bool) :
    (a ++ b).find? p =
      match a.find? p with
      | some x => some x
      | none => b.find? p := by
  induction a with
  | nil => simp
  | cons hd tl ih =>
    by_cases h : p hd
    · simp [List.find?_cons_of_pos _ h]
    · simp [List.find?_cons_of_neg _ h, ih]

/-! Lemmas about `Object.assign` folds. -/

theorem setKey_cons_ne {α : Type} (k1 : String) (v1 : α) (t : List (String × α))
    (k : String) (v : α) (h : k1 ≠ k) :
    setKey ((k1, v1) :: t) k v = (k1, v1) :: setKey t k v := by
  simp [setKey, h]

theorem foldl_setKey_cons_of_notMem {α : Type} (kvs : List (String × α)) (k1 : String)
    (v1 : α) (hk : k1 ∉ kvs.map Prod.fst) :
    ∀ T : List (String × α),
      kvs.foldl (fun t kv => setKey t kv.1 kv.2) ((k1, v1) :: T) =
        (k1, v1) :: kvs.foldl (fun t kv => setKey t kv.1 kv.2) T := by
  induction kvs with
  | nil => intro T; rfl
  | cons hd tl ih =>
    intro T
    obtain ⟨k2, v2⟩ := hd
    simp only [List.map_cons, List.mem_cons] at hk
    push_neg at hk
    simp only [List.foldl_cons]
    rw [setKey_cons_ne k1 v1 T k2 v2 hk.1, ih hk.2]

theorem foldl_setKey_same_keys {α : Type} :
    ∀ (m s : List (String × α)), m.map Prod.fst = s.map Prod.fst →
      (s.map Prod.fst).Nodup →
      m.foldl (fun t kv => setKey t kv.1 kv.2) s = m := by
  intro m
  induction m with
  | nil =>
    intro s hk hnd
    have : s = [] := by
      cases s with
      | nil => rfl
      | cons hd tl => simp at hk
    simp [this]
  | cons hd tl ih =>
    intro s hk hnd
    obtain ⟨k, w⟩ := hd
    cases s with
    | nil => simp at hk
    | cons hd2 s2 =>
      obtain ⟨k2, v2⟩ := hd2
      simp only [List.map_cons, List.cons.injEq] at hk
      obtain ⟨hkk, hks⟩ := hk
      subst hkk
      simp only [List.map_cons, List.nodup_cons] at hnd
      have hset : setKey ((k, v2) :: s2) k w = (k, w) :: s2 := by
        simp [setKey]
      simp only [List.foldl_cons]
      rw [hset]
      have hknotin : k ∉ tl.map Prod.fst := by rw [hks]; exact hnd.1
      rw [foldl_setKey_cons_of_notMem tl k w hknotin s2, ih s2 hks hnd.2]

theorem foldl_setKey_disjoint {α : Type} :
    ∀ (m2 T : List (String × α)),
      (∀ k ∈ m2.map Prod.fst, k ∉ T.map Prod.fst) → (m2.map Prod.fst).Nodup →
      m2.foldl (fun t kv => setKey t kv.1 kv.2) T = T ++ m2 := by
  intro m2
  induction m2 with
  | nil => intro T _ _; simp
  | cons hd tl ih =>
    intro T hdisj hnd
    obtain ⟨k, v⟩ := hd
    simp only [List.map_cons, List.nodup_cons] at hnd
    have hkT : k ∉ T.map Prod.fst := hdisj k (by simp)
    simp only [List.foldl_cons]
    rw [setKey_append_of_mapGet_none T k v ((mapGet_eq_none_iff T k).mpr hkT)]
    rw [ih (T ++ [(k, v)])]
    · simp
    · intro k2 hk2
      simp only [List.map_append, List.mem_append, List.map_cons]
      rintro (h | h)
      · exact hdisj k2 (by simp [hk2]) h
      · simp at h
        subst h
        exact hnd.1 hk2
    · exact hnd.2

theorem keys_objAssign :
    ∀ (src tgt : StringMap), (tgt.map Prod.fst).Nodup →
      ∃ ext, (objAssign tgt src).map Prod.fst = tgt.map Prod.fst ++ ext ∧
        ((tgt.map Prod.fst ++ ext) : List String).Nodup := by
  intro src
  induction src with
  | nil =>
    intro tgt hnd
    exact ⟨[], by simp [objAssign], by simpa using hnd⟩
  | cons hd src2 ih =>
    intro tgt hnd
    obtain ⟨k, v⟩ := hd
    have step : objAssign tgt ((k, v) :: src2) = objAssign (setKey tgt k v) src2 := rfl
    obtain ⟨ext2, hkeys, hnd2⟩ := ih (setKey tgt k v) (nodup_keys_setKey tgt k v hnd)
    by_cases hk : k ∈ tgt.map Prod.fst
    · refine ⟨ext2, ?_, ?_⟩
      · rw [step, hkeys, keys_setKey, if_pos hk]
      · rw [keys_setKey, if_pos hk] at hnd2
        exact hnd2
    · refine ⟨k :: ext2, ?_, ?_⟩
      · rw [step, hkeys, keys_setKey, if_neg hk]
        simp
      · rw [keys_setKey, if_neg hk] at hnd2
        simpa using hnd2

theorem map_fst_eq_append_split {α : Type} :
    ∀ (A : List String) (m : List (String × α)) (B : List String),
      m.map Prod.fst = A ++ B →
      ∃ m1 m2, m = m1 ++ m2 ∧ m1.map Prod.fst = A ∧ m2.map Prod.fst = B := by
  intro A
  induction A with
  | nil =>
    intro m B h
    exact ⟨[], m, by simp, rfl, by simpa using h⟩
  | cons a A2 ih =>
    intro m B h
    cases m with
    | nil => simp at h
    | cons hd m2 =>
      obtain ⟨k, v⟩ := hd
      simp only [List.map_cons, List.cons_append, List.cons.injEq] at h
      obtain ⟨hk, hrest⟩ := h
      subst hk
      obtain ⟨m1, m3, hm, h1, h2⟩ := ih m2 B hrest
      exact ⟨(k, v) :: m1, m3, by simp [hm], by simp [h1], h2⟩

theorem objAssign_absorb (s f : StringMap)
    (hnd : (s.map Prod.fst).Nodup) :
    objAssign s (objAssign s f) = objAssign s f := by
  obtain ⟨ext, hkeys, hndm⟩ := keys_objAssign f s hnd
  obtain ⟨m1, m2, hm, h1, h2⟩ := map_fst_eq_append_split (s.map Prod.fst)
    (objAssign s f) ext hkeys
  have hnd1 : (m1.map Prod.fst).Nodup := by
    rw [h1]; exact hnd
  rw [hm]
  show (m1 ++ m2).foldl (fun t kv => setKey t kv.1 kv.2) s = m1 ++ m2
  rw [List.foldl_append]
  rw [foldl_setKey_same_keys m1 s h1 hnd]
  apply foldl_setKey_disjoint m2 m1
  · intro k hk
    rw [h1]
    intro hks
    exact (List.disjoint_of_nodup_append hndm) hks (h2 ▸ hk)
  · rw [h2]
    exact List.Nodup.of_append_right hndm

theorem mapGet_objAssign_of_notMem :
    ∀ (src tgt : StringMap) (k : String), k ∉ src.map Prod.fst →
      mapGet (objAssign tgt src) k = mapGet tgt k := by
  intro src
  induction src with
  | nil => intro tgt k _; rfl
  | cons hd src2 ih =>
    intro tgt k hk
    obtain ⟨k1, v1⟩ := hd
    simp only [List.map_cons, List.mem_cons] at hk
    push_neg at hk
    have step : objAssign tgt ((k1, v1) :: src2) = objAssign (setKey tgt k1 v1) src2 := rfl
    rw [step, ih (setKey tgt k1 v1) k hk.2, mapGet_setKey, if_neg (fun h => hk.1 h.symm)]

theorem mapGet_objAssign_of_mem :
    ∀ (src tgt : StringMap) (k : String) (v : String),
      (src.map Prod.fst).Nodup → mapGet src k = some v →
      mapGet (objAssign tgt src) k = some v := by
  intro src
  induction src with
  | nil => intro tgt k v _ h; simp [mapGet] at h
  | cons hd src2 ih =>
    intro tgt k v hnd hget
    obtain ⟨k1, v1⟩ := hd
    simp only [List.map_cons, List.nodup_cons] at hnd
    have step : objAssign tgt ((k1, v1) :: src2) = objAssign (setKey tgt k1 v1) src2 := rfl
    by_cases hk : k1 = k
    · subst hk
      have hv : v1 = v := by simpa [mapGet] using hget
      subst hv
      rw [step, mapGet_objAssign_of_notMem src2 (setKey tgt k1 v1) k1 hnd.1,
        mapGet_setKey, if_pos rfl]
    · simp only [mapGet, if_neg hk] at hget
      rw [step]
      exact ih (setKey tgt k1 v1) k v hnd.2 hget

/-! Lemmas about the resolver loop. -/

theorem mapGet_append_singleton_none {α : Type} (m : List (String × α)) (p q : String)
    (v : α) (hq : mapGet m q = none) (hne : p ≠ q) : mapGet (m ++ [(p, v)]) q = none := by
  rw [mapGet_append, hq]
  simp [mapGet, hne]

theorem rearrangeLoop_spec (hash : String → String)
    (byHash : List (String × PathContent)) :
    ∀ (L : List (String × Json)) (acc : RearrangedSources),
      (L.map Prod.fst).Nodup →
      (∀ p ∈ L.map Prod.fst,
        mapGet acc.foundSources p = none ∧ mapGet acc.missingSources p = none ∧
        mapGet acc.invalidSources p = none ∧ mapGet acc.metadata2provided p = none) →
      rearrangeLoop hash byHash L acc =
        ⟨acc.foundSources ++ L.filterMap (fun e =>
            (fateFound (classifySource hash byHash e.2)).map (fun c => (e.1, c))),
         acc.missingSources ++ L.filterMap (fun e =>
            (fateMissing (classifySource hash byHash e.2)).map (fun mv => (e.1, mv))),
         acc.invalidSources ++ L.filterMap (fun e =>
            (fateInvalid (classifySource hash byHash e.2)).map (fun iv => (e.1, iv))),
         acc.metadata2provided ++ L.filterMap (fun e =>
            (fateProvided (classifySource hash byHash e.2)).map (fun pp => (e.1, pp)))⟩ := by
  intro L
  induction L with
  | nil => intro acc _ _; simp [rearrangeLoop]
  | cons hd tl ih =>
    intro acc hnd hfresh
    obtain ⟨p, info⟩ := hd
    simp only [List.map_cons, List.nodup_cons] at hnd
    have hfp := hfresh p (by simp)
    have hpq : ∀ q ∈ tl.map Prod.fst, p ≠ q := fun q hq h => hnd.1 (h ▸ hq)
    cases hcl : classifySource hash byHash info with
    | found c =>
      simp only [rearrangeLoop, hcl]
      rw [setKey_append_of_mapGet_none _ _ _ hfp.1]
      have hF : ∀ q ∈ tl.map Prod.fst,
          mapGet (acc.foundSources ++ [(p, c)]) q = none ∧
          mapGet acc.missingSources q = none ∧
          mapGet acc.invalidSources q = none ∧
          mapGet acc.metadata2provided q = none := by
        intro q hq
        have hfq := hfresh q (by simp [hq])
        exact ⟨mapGet_append_singleton_none _ _ _ _ hfq.1 (hpq q hq), hfq.2.1,
          hfq.2.2.1, hfq.2.2.2⟩
      rw [ih _ hnd.2 hF]
      simp [List.filterMap_cons, hcl, fateFound, fateMissing, fateInvalid, fateProvided]
    | foundAndUsed c pp =>
      simp only [rearrangeLoop, hcl]
      rw [setKey_append_of_mapGet_none _ _ _ hfp.1,
        setKey_append_of_mapGet_none _ _ _ hfp.2.2.2]
      have hF : ∀ q ∈ tl.map Prod.fst,
          mapGet (acc.foundSources ++ [(p, c)]) q = none ∧
          mapGet acc.missingSources q = none ∧
          mapGet acc.invalidSources q = none ∧
          mapGet (acc.metadata2provided ++ [(p, pp)]) q = none := by
        intro q hq
        have hfq := hfresh q (by simp [hq])
        exact ⟨mapGet_append_singleton_none _ _ _ _ hfq.1 (hpq q hq), hfq.2.1,
          hfq.2.2.1, mapGet_append_singleton_none _ _ _ _ hfq.2.2.2 (hpq q hq)⟩
      rw [ih _ hnd.2 hF]
      simp [List.filterMap_cons, hcl, fateFound, fateMissing, fateInvalid, fateProvided]
    | missingAfterHit pp mv =>
      simp only [rearrangeLoop, hcl]
      rw [setKey_append_of_mapGet_none _ _ _ hfp.2.1,
        setKey_append_of_mapGet_none _ _ _ hfp.2.2.2]
      have hF : ∀ q ∈ tl.map Prod.fst,
          mapGet acc.foundSources q = none ∧
          mapGet (acc.missingSources ++ [(p, mv)]) q = none ∧
          mapGet acc.invalidSources q = none ∧
          mapGet (acc.metadata2provided ++ [(p, pp)]) q = none := by
        intro q hq
        have hfq := hfresh q (by simp [hq])
        exact ⟨hfq.1, mapGet_append_singleton_none _ _ _ _ hfq.2.1 (hpq q hq),
          hfq.2.2.1, mapGet_append_singleton_none _ _ _ _ hfq.2.2.2 (hpq q hq)⟩
      rw [ih _ hnd.2 hF]
      simp [List.filterMap_cons, hcl, fateFound, fateMissing, fateInvalid, fateProvided]
    | missingNoHit mv =>
      simp only [rearrangeLoop, hcl]
      rw [setKey_append_of_mapGet_none _ _ _ hfp.2.1]
      have hF : ∀ q ∈ tl.map Prod.fst,
          mapGet acc.foundSources q = none ∧
          mapGet (acc.missingSources ++ [(p, mv)]) q = none ∧
          mapGet acc.invalidSources q = none ∧
          mapGet acc.metadata2provided q = none := by
        intro q hq
        have hfq := hfresh q (by simp [hq])
        exact ⟨hfq.1, mapGet_append_singleton_none _ _ _ _ hfq.2.1 (hpq q hq),
          hfq.2.2.1, hfq.2.2.2⟩
      rw [ih _ hnd.2 hF]
      simp [List.filterMap_cons, hcl, fateFound, fateMissing, fateInvalid, fateProvided]
    | invalid iv =>
      simp only [rearrangeLoop, hcl]
      rw [setKey_append_of_mapGet_none _ _ _ hfp.2.2.1]
      have hF : ∀ q ∈ tl.map Prod.fst,
          mapGet acc.foundSources q = none ∧
          mapGet acc.missingSources q = none ∧
          mapGet (acc.invalidSources ++ [(p, iv)]) q = none ∧
          mapGet acc.metadata2provided q = none := by
        intro q hq
        have hfq := hfresh q (by simp [hq])
        exact ⟨hfq.1, hfq.2.1,
          mapGet_append_singleton_none _ _ _ _ hfq.2.2.1 (hpq q hq), hfq.2.2.2⟩
      rw [ih _ hnd.2 hF]
      simp [List.filterMap_cons, hcl, fateFound, fateMissing, fateInvalid, fateProvided]

theorem rearrangeSources_eq (hash : String → String) (metadata : Json)
    (byHash : List (String × PathContent))
    (hnd : ((jsSources metadata).map Prod.fst).Nodup) :
    rearrangeSources hash metadata byHash =
      ⟨(jsSources metadata).filterMap (fun e =>
          (fateFound (classifySource hash byHash e.2)).map (fun c => (e.1, c))),
       (jsSources metadata).filterMap (fun e =>
          (fateMissing (classifySource hash byHash e.2)).map (fun mv => (e.1, mv))),
       (jsSources metadata).filterMap (fun e =>
          (fateInvalid (classifySource hash byHash e.2)).map (fun iv => (e.1, iv))),
       (jsSources metadata).filterMap (fun e =>
          (fateProvided (classifySource hash byHash e.2)).map (fun pp => (e.1, pp)))⟩ := by
  unfold rearrangeSources
  rw [rearrangeLoop_spec hash byHash (jsSources metadata) ⟨[], [], [], []⟩ hnd
    (fun p _ => ⟨rfl, rfl, rfl, rfl⟩)]
  simp

theorem fate_total (g : SourceFate) :
    (fateFound g).isSome ∨ (fateMissing g).isSome ∨ (fateInvalid g).isSome := by
  cases g <;> simp [fateFound, fateMissing, fateInvalid]

theorem fate_exclusive (g : SourceFate) :
    ¬((fateFound g).isSome ∧ (fateMissing g).isSome) ∧
    ¬((fateFound g).isSome ∧ (fateInvalid g).isSome) ∧
    ¬((fateMissing g).isSome ∧ (fateInvalid g).isSome) := by
  cases g <;> simp [fateFound, fateMissing, fateInvalid]

theorem mem_keys_fateMap {β : Type} (g : SourceFate → Option β)
    (hash : String → String) (byHash : List (String × PathContent))
    (L : List (String × Json)) (p : String) :
    (p ∈ (L.filterMap (fun e => (g (classifySource hash byHash e.2)).map
        (fun c => (e.1, c)))).map Prod.fst) ↔
      ∃ e ∈ L, e.1 = p ∧ (g (classifySource hash byHash e.2)).isSome := by
  simp only [List.mem_map, List.mem_filterMap, Option.map_eq_some']
  constructor
  · rintro ⟨b, ⟨e, heL, c, hc, rfl⟩, rfl⟩
    exact ⟨e, heL, rfl, by simp [hc]⟩
  · rintro ⟨e, heL, rfl, hsome⟩
    obtain ⟨c, hc⟩ := Option.isSome_iff_exists.mp hsome
    exact ⟨(e.1, c), ⟨e, heL, c, hc, rfl⟩, rfl⟩

theorem eq_snd_of_mem_keys_nodup {α : Type} (L : List (String × α)) (p : String)
    (a b : α) (hnd : (L.map Prod.fst).Nodup) (h1 : (p, a) ∈ L) (h2 : (p, b) ∈ L) :
    a = b := by
  have ha := mapGet_eq_some_of_mem_nodup L p a hnd h1
  have hb := mapGet_eq_some_of_mem_nodup L p b hnd h2
  rw [ha] at hb
  exact Option.some.inj hb

theorem fate_length (hash : String → String) (byHash : List (String × PathContent)) :
    ∀ L : List (String × Json),
      (L.filterMap (fun e => (fateFound (classifySource hash byHash e.2)).map
        (fun c => (e.1, c)))).length +
      (L.filterMap (fun e => (fateMissing (classifySource hash byHash e.2)).map
        (fun mv => (e.1, mv)))).length +
      (L.filterMap (fun e => (fateInvalid (classifySource hash byHash e.2)).map
        (fun iv => (e.1, iv)))).length = L.length := by
  intro L
  induction L with
  | nil => rfl
  | cons hd tl ih =>
    cases hcl : classifySource hash byHash hd.2 with
    | found c =>
      simp only [List.filterMap_cons, hcl,
        show fateFound (SourceFate.found c) = some c from rfl,
        show fateMissing (SourceFate.found c) = none from rfl,
        show fateInvalid (SourceFate.found c) = none from rfl,
        Option.map_some', Option.map_none', List.length_cons]
      omega
    | foundAndUsed c pp =>
      simp only [List.filterMap_cons, hcl,
        show fateFound (SourceFate.foundAndUsed c pp) = some c from rfl,
        show fateMissing (SourceFate.foundAndUsed c pp) = none from rfl,
        show fateInvalid (SourceFate.foundAndUsed c pp) = none from rfl,
        Option.map_some', Option.map_none', List.length_cons]
      omega
    | missingAfterHit pp mv =>
      simp only [List.filterMap_cons, hcl,
        show fateFound (SourceFate.missingAfterHit pp mv) = none from rfl,
        show fateMissing (SourceFate.missingAfterHit pp mv) = some mv from rfl,
        show fateInvalid (SourceFate.missingAfterHit pp mv) = none from rfl,
        Option.map_some', Option.map_none', List.length_cons]
      omega
    | missingNoHit mv =>
      simp only [List.filterMap_cons, hcl,
        show fateFound (SourceFate.missingNoHit mv) = none from rfl,
        show fateMissing (SourceFate.missingNoHit mv) = some mv from rfl,
        show fateInvalid (SourceFate.missingNoHit mv) = none from rfl,
        Option.map_some', Option.map_none', List.length_cons]
      omega
    | invalid iv =>
      simp only [List.filterMap_cons, hcl,
        show fateFound (SourceFate.invalid iv) = none from rfl,
        show fateMissing (SourceFate.invalid iv) = none from rfl,
        show fateInvalid (SourceFate.invalid iv) = some iv from rfl,
        Option.map_some', Option.map_none', List.length_cons]
      omega

theorem nodup_keys_pathContentArray (arr : List PathContent) :
    ((pathContentArrayToStringMap arr).map Prod.fst).Nodup := by
  have gen : ∀ (l : List (Nat × PathContent)) (sm : StringMap), (sm.map Prod.fst).Nodup →
      ((l.foldl (fun sm ie =>
        if ie.2.path ≠ "" then setKey sm ie.2.path ie.2.content
        else setKey sm ("path-" ++ toString ie.1) ie.2.content) sm).map Prod.fst).Nodup := by
    intro l
    induction l with
    | nil => intro sm h; exact h
    | cons hd tl ih =>
      intro sm h
      simp only [List.foldl_cons]
      apply ih
      split
      · exact nodup_keys_setKey _ _ _ h
      · exact nodup_keys_setKey _ _ _ h
  exact gen arr.enum [] (by simp)

/-! Lemmas about classification and the classifier loop. -/

theorem classifyFile_no_marker_direct (f : PathContent)
    (h : strContains f.content HARDHAT_MARKER = false) :
    classIsDirect (classifyFile f) = true := by
  unfold classifyFile
  rw [h]
  simp only [Bool.false_eq_true, if_false]
  cases hmd : (match extractMetadataFromString f.content with
    | some m => some m
    | none =>
      match nestedMetadataMatch f.content with
      | some matched => extractMetadataFromString matched
      | none => none) with
  | none => rfl
  | some md =>
    by_cases hc : compilationTargetCheck md = true <;> simp [hc, classIsDirect]

theorem classifyFile_metadataDoc_check (f : PathContent) (md : Json)
    (h : classifyFile f = .metadataDoc md) : compilationTargetCheck md = true := by
  unfold classifyFile at h
  by_cases hm : strContains f.content HARDHAT_MARKER
  · rw [hm] at h
    simp only [if_true] at h
    cases hx : extractHardhatMetadataAndSources f with
    | error e => rw [hx] at h; exact absurd h (by simp)
    | ok pr => rw [hx] at h; exact absurd h (by simp)
  · rw [Bool.not_eq_true] at hm
    rw [hm] at h
    simp only [Bool.false_eq_true, if_false] at h
    cases hmd : (match extractMetadataFromString f.content with
      | some m => some m
      | none =>
        match nestedMetadataMatch f.content with
        | some matched => extractMetadataFromString matched
        | none => none) with
    | none => rw [hmd] at h; exact absurd h (by simp)
    | some md2 =>
      rw [hmd] at h
      by_cases hc : compilationTargetCheck md2 = true
      · simp only [hc, if_true] at h
        cases h
        exact hc
      · simp only [hc, Bool.false_eq_true, if_false] at h
        exact absurd h (by simp)

theorem splitLoop_all_source :
    ∀ (L : List PathContent) (mds : List (Option Json)) (srcs : List PathContent)
      (mals : List String),
      (∀ f ∈ L, classifyFile f = .sourceDoc) →
      splitLoop L mds srcs mals = .ok (mds, srcs ++ L, mals) := by
  intro L
  induction L with
  | nil => intro mds srcs mals _; simp [splitLoop]
  | cons hd tl ih =>
    intro mds srcs mals hall
    have hc := hall hd (by simp)
    simp only [splitLoop, hc]
    rw [ih mds (srcs ++ [hd]) mals (fun f hf => hall f (by simp [hf]))]
    simp

theorem splitLoop_direct :
    ∀ (L : List PathContent) (mds : List (Option Json)) (srcs : List PathContent)
      (mals : List String),
      (∀ f ∈ L, classIsDirect (classifyFile f) = true) →
      splitLoop L mds srcs mals = .ok
        (mds ++ L.filterMap (fun f => (classMd (classifyFile f)).map some),
         srcs ++ L.filter (fun f => classIsSrc (classifyFile f)),
         mals ++ (L.filter (fun f => classIsMal (classifyFile f))).map
           (fun f => f.path)) := by
  intro L
  induction L with
  | nil => intro mds srcs mals _; simp [splitLoop]
  | cons hd tl ih =>
    intro mds srcs mals hall
    have hd1 := hall hd (by simp)
    have htl : ∀ f ∈ tl, classIsDirect (classifyFile f) = true :=
      fun f hf => hall f (by simp [hf])
    cases hc : classifyFile hd with
    | hhError e => rw [hc] at hd1; exact absurd hd1 (by simp [classIsDirect])
    | hhOk hmds hsrcs => rw [hc] at hd1; exact absurd hd1 (by simp [classIsDirect])
    | metadataDoc md =>
      simp only [splitLoop, hc]
      rw [ih (mds ++ [some md]) srcs mals htl]
      simp [List.filterMap_cons, List.filter_cons, hc, classMd, classIsSrc, classIsMal]
    | malformedDoc =>
      simp only [splitLoop, hc]
      rw [ih mds srcs (mals ++ [hd.path]) htl]
      simp [List.filterMap_cons, List.filter_cons, hc, classMd, classIsSrc, classIsMal]
    | sourceDoc =>
      simp only [splitLoop, hc]
      rw [ih mds (srcs ++ [hd]) mals htl]
      simp [List.filterMap_cons, List.filter_cons, hc, classMd, classIsSrc, classIsMal]

theorem checkContracts_map_some (hash : String → String)
    (byHash : List (String × PathContent)) :
    ∀ mds : List Json,
      checkContracts hash byHash (mds.map some) =
        .ok (mds.map (contractFor hash byHash), usedOf hash byHash mds) := by
  intro mds
  induction mds with
  | nil => rfl
  | cons hd tl ih =>
    simp only [List.map_cons, checkContracts, ih]
    simp [usedOf, contractFor]

/-! Lemmas about archive expansion and path collection. -/

theorem string_data_append (a b : String) : (a ++ b).data = a.data ++ b.data := by
  cases a
  cases b
  rfl

theorem sliceFrom_strip (a b : String) : sliceFrom (a ++ "/" ++ b) (a.length + 1) = b := by
  unfold sliceFrom
  have hdata : (a ++ "/" ++ b).data = (a.data ++ ['/']) ++ b.data := by
    rw [string_data_append, string_data_append]
  rw [hdata]
  have hl : a.length + 1 = (a.data ++ ['/']).length := by
    rw [List.length_append]
    rfl
  rw [hl, List.drop_left]

theorem unzip_members (members : String → List PathBuffer) (tmpName : String)
    (zf : PathBuffer) : unzip members tmpName zf = members zf.buffer := by
  show (members zf.buffer).map (fun m =>
    PathBuffer.mk (sliceFrom (("tmp-unzipped-" ++ tmpName) ++ "/" ++ m.path)
      (("tmp-unzipped-" ++ tmpName).length + 1)) m.buffer) = members zf.buffer
  have hbody : (fun m : PathBuffer =>
      PathBuffer.mk (sliceFrom (("tmp-unzipped-" ++ tmpName) ++ "/" ++ m.path)
        (("tmp-unzipped-" ++ tmpName).length + 1)) m.buffer) = id := by
    funext m
    rw [sliceFrom_strip]
    rfl
  rw [hbody, List.map_id]

theorem tuzLoop_tmps_independent (isZip : String → Bool)
    (members : String → List PathBuffer) :
    ∀ (fuel : Nat) (tmps1 tmps2 : Nat → String) (ti1 ti2 : Nat)
      (acc pending : List PathBuffer),
      tuzLoop isZip members tmps1 fuel ti1 acc pending =
        tuzLoop isZip members tmps2 fuel ti2 acc pending := by
  intro fuel
  induction fuel with
  | zero => intro tmps1 tmps2 ti1 ti2 acc pending; rfl
  | succ n ih =>
    intro tmps1 tmps2 ti1 ti2 acc pending
    cases pending with
    | nil => rfl
    | cons f rest =>
      by_cases hz : isZip f.buffer
      · simp only [tuzLoop, hz, if_true, unzip_members]
        exact ih tmps1 tmps2 (ti1 + 1) (ti2 + 1) acc (rest ++ members f.buffer)
      · simp only [tuzLoop, hz, Bool.false_eq_true, if_false]
        exact ih tmps1 tmps2 ti1 ti2 (acc ++ [f]) rest

theorem traverseAndUnzipFiles_tmps_independent (isZip : String → Bool)
    (members : String → List PathBuffer) (tmps1 tmps2 : Nat → String) (fuel : Nat)
    (files : List PathBuffer) :
    traverseAndUnzipFiles isZip members tmps1 fuel files =
      traverseAndUnzipFiles isZip members tmps2 fuel files :=
  tuzLoop_tmps_independent isZip members fuel tmps1 tmps2 0 0 [] files

theorem collect_foldl (fs : FileSystem) :
    ∀ (paths : List String) (acc : List PathBuffer) (ig : Option (List String)),
      paths.foldl (collectStep fs) (acc, ig) =
        (acc ++ existingFiles fs paths,
         match ig with
         | none => none
         | some l => some (l ++ paths.filter (fun p => !(fs.pathExists p)))) := by
  intro paths
  induction paths with
  | nil =>
    intro acc ig
    cases ig <;> simp [existingFiles]
  | cons hd tl ih =>
    intro acc ig
    by_cases hx : fs.pathExists hd
    · simp only [List.foldl_cons, collectStep, hx, if_true]
      rw [ih (acc ++ fs.readTree hd) ig]
      cases ig <;> simp [existingFiles, List.filter_cons, hx]
    · simp only [List.foldl_cons, collectStep, hx, Bool.false_eq_true, if_false]
      cases ig with
      | none =>
        rw [ih acc none]
        simp [existingFiles, List.filter_cons, hx]
      | some l =>
        rw [ih acc (some (l ++ [hd]))]
        simp [existingFiles, List.filter_cons, hx]

theorem keys_fateMap_sublist {β : Type} (g : SourceFate → Option β)
    (hash : String → String) (byHash : List (String × PathContent)) :
    ∀ L : List (String × Json),
      ((L.filterMap (fun e => (g (classifySource hash byHash e.2)).map
        (fun c => (e.1, c)))).map Prod.fst).Sublist (L.map Prod.fst) := by
  intro L
  induction L with
  | nil => simp
  | cons hd tl ih =>
    cases hg : g (classifySource hash byHash hd.2) with
    | none =>
      simp only [List.filterMap_cons, hg, Option.map_none', List.map_cons]
      exact ih.cons hd.1
    | some b =>
      simp only [List.filterMap_cons, hg, Option.map_some', List.map_cons]
      exact ih.cons₂ hd.1

theorem classMd_eq_some (fc : FileClass) (md : Json) (h : classMd fc = some md) :
    fc = FileClass.metadataDoc md := by
  cases fc <;> simp [classMd] at h
  simp [h]

/-- C1: for every metadata document processed by `rearrangeSources`, the key
sets of FoundSources, MissingSources and InvalidSources are pairwise disjoint,
their union is exactly the set of declared source paths, and the sizes add up
to the number of declared sources. -/
theorem rearrangeSources_partitions_declared_sources
    (hash : String → String) (metadata : Json) (byHash : List (String × PathContent))
    (hnd : ((jsSources metadata).map Prod.fst).Nodup) :
    (∀ p : String,
      ¬(p ∈ (rearrangeSources hash metadata byHash).foundSources.map Prod.fst ∧
        p ∈ (rearrangeSources hash metadata byHash).missingSources.map Prod.fst) ∧
      ¬(p ∈ (rearrangeSources hash metadata byHash).foundSources.map Prod.fst ∧
        p ∈ (rearrangeSources hash metadata byHash).invalidSources.map Prod.fst) ∧
      ¬(p ∈ (rearrangeSources hash metadata byHash).missingSources.map Prod.fst ∧
        p ∈ (rearrangeSources hash metadata byHash).invalidSources.map Prod.fst)) ∧
    (∀ p : String,
      (p ∈ (rearrangeSources hash metadata byHash).foundSources.map Prod.fst ∨
       p ∈ (rearrangeSources hash metadata byHash).missingSources.map Prod.fst ∨
       p ∈ (rearrangeSources hash metadata byHash).invalidSources.map Prod.fst) ↔
      p ∈ (jsSources metadata).map Prod.fst) ∧
    ((rearrangeSources hash metadata byHash).foundSources.length +
      (rearrangeSources hash metadata byHash).missingSources.length +
      (rearrangeSources hash metadata byHash).invalidSources.length =
      (jsSources metadata).length) := by
  rw [rearrangeSources_eq hash metadata byHash hnd]
  refine ⟨?_, ?_, ?_⟩
  · intro p
    refine ⟨?_, ?_, ?_⟩
    · rintro ⟨hf, hm⟩
      rw [mem_keys_fateMap] at hf hm
      obtain ⟨e1, he1, hp1, hs1⟩ := hf
      obtain ⟨e2, he2, hp2, hs2⟩ := hm
      have hinfo : e1.2 = e2.2 := by
        apply eq_snd_of_mem_keys_nodup (jsSources metadata) p _ _ hnd
        · rw [← hp1]; exact he1
        · rw [← hp2]; exact he2
      rw [hinfo] at hs1
      exact (fate_exclusive (classifySource hash byHash e2.2)).1 ⟨hs1, hs2⟩
    · rintro ⟨hf, hi⟩
      rw [mem_keys_fateMap] at hf hi
      obtain ⟨e1, he1, hp1, hs1⟩ := hf
      obtain ⟨e2, he2, hp2, hs2⟩ := hi
      have hinfo : e1.2 = e2.2 := by
        apply eq_snd_of_mem_keys_nodup (jsSources metadata) p _ _ hnd
        · rw [← hp1]; exact he1
        · rw [← hp2]; exact he2
      rw [hinfo] at hs1
      exact (fate_exclusive (classifySource hash byHash e2.2)).2.1 ⟨hs1, hs2⟩
    · rintro ⟨hm, hi⟩
      rw [mem_keys_fateMap] at hm hi
      obtain ⟨e1, he1, hp1, hs1⟩ := hm
      obtain ⟨e2, he2, hp2, hs2⟩ := hi
      have hinfo : e1.2 = e2.2 := by
        apply eq_snd_of_mem_keys_nodup (jsSources metadata) p _ _ hnd
        · rw [← hp1]; exact he1
        · rw [← hp2]; exact he2
      rw [hinfo] at hs1
      exact (fate_exclusive (classifySource hash byHash e2.2)).2.2 ⟨hs1, hs2⟩
  · intro p
    constructor
    · rintro (hf | hm | hi)
      · rw [mem_keys_fateMap] at hf
        obtain ⟨e, he, hp, _⟩ := hf
        exact hp ▸ List.mem_map_of_mem Prod.fst he
      · rw [mem_keys_fateMap] at hm
        obtain ⟨e, he, hp, _⟩ := hm
        exact hp ▸ List.mem_map_of_mem Prod.fst he
      · rw [mem_keys_fateMap] at hi
        obtain ⟨e, he, hp, _⟩ := hi
        exact hp ▸ List.mem_map_of_mem Prod.fst he
    · intro hp
      obtain ⟨e, he, hpe⟩ := List.mem_map.mp hp
      rcases fate_total (classifySource hash byHash e.2) with h | h | h
      · exact Or.inl ((mem_keys_fateMap fateFound hash byHash _ p).mpr ⟨e, he, hpe, h⟩)
      · exact Or.inr (Or.inl
          ((mem_keys_fateMap fateMissing hash byHash _ p).mpr ⟨e, he, hpe, h⟩))
      · exact Or.inr (Or.inr
          ((mem_keys_fateMap fateInvalid hash byHash _ p).mpr ⟨e, he, hpe, h⟩))
  · exact fate_length hash byHash (jsSources metadata)

/-- Witness for C1 at a concrete metadata document with two declared sources. -/
theorem rearrangeSources_partitions_declared_sources_witness :
    ((jsSources mdTwoSources).map Prod.fst).Nodup ∧
    ((rearrangeSources hashT mdTwoSources []).foundSources.length +
      (rearrangeSources hashT mdTwoSources []).missingSources.length +
      (rearrangeSources hashT mdTwoSources []).invalidSources.length =
      (jsSources mdTwoSources).length) :=
  ⟨by decide,
   (rearrangeSources_partitions_declared_sources hashT mdTwoSources [] (by decide)).2.2⟩

theorem foldl_foldl_flatMap {α β γ : Type} (g : α → List β) (step : γ → β → γ) :
    ∀ (l : List α) (init : γ),
      l.foldl (fun acc x => (g x).foldl step acc) init = (l.flatMap g).foldl step init := by
  intro l
  induction l with
  | nil => intro init; rfl
  | cons hd tl ih =>
    intro init
    rw [List.foldl_cons, List.flatMap_cons, List.foldl_append]
    exact ih ((g hd).foldl step init)

theorem storeByHash_flatten (hash : String → String) (files : List PathContent) :
    storeByHash hash files =
      (files.flatMap generateVariations).foldl
        (fun bh variation => setKey bh (hash variation.content) variation) [] :=
  foldl_foldl_flatMap generateVariations
    (fun bh variation => setKey bh (hash variation.content) variation) files []

theorem foldl_setKey_find (hash : String → String) :
    ∀ (L : List PathContent) (init : List (String × PathContent)) (k : String),
      mapGet (L.foldl (fun bh variation =>
        setKey bh (hash variation.content) variation) init) k =
      match L.reverse.find? (fun v => hash v.content == k) with
      | some v => some v
      | none => mapGet init k := by
  intro L
  induction L with
  | nil => intro init k; rfl
  | cons hd tl ih =>
    intro init k
    simp only [List.foldl_cons, List.reverse_cons]
    rw [ih, find?_append_eq]
    cases hf : tl.reverse.find? (fun v => hash v.content == k) with
    | some v => rfl
    | none =>
      by_cases hk : hash hd.content = k
      · have hfind : List.find? (fun v => hash v.content == k) [hd] = some hd := by
          simp [List.find?_singleton, hk]
        rw [mapGet_setKey, if_pos hk]
        simp [hfind]
      · have hfind : List.find? (fun v => hash v.content == k) [hd] = none := by
          simp [List.find?_singleton, hk]
        rw [mapGet_setKey, if_neg hk]
        simp [hfind]

/-- C2: `generateVariations` produces exactly the 3 × 6 = 18 ending/line-ending
variants of a file, all carrying the original path, and the hash index maps a
hash key to the most recently inserted variation bearing that key. -/
theorem storeByHash_variations_last_write_wins
    (hash : String → String) (files : List PathContent) (pc : PathContent)
    (h : String) :
    generateVariations pc = CONTENT_VARIATORS.flatMap (fun cv =>
      ENDING_VARIATORS.map (fun ev => PathContent.mk pc.path (ev (cv pc.content)))) ∧
    (generateVariations pc).length = 18 ∧
    (∀ v ∈ generateVariations pc, v.path = pc.path) ∧
    mapGet (storeByHash hash files) h =
      (files.flatMap generateVariations).reverse.find? (fun v => hash v.content == h) := by
  refine ⟨rfl, rfl, ?_, ?_⟩
  · intro v hv
    simp only [generateVariations, CONTENT_VARIATORS, ENDING_VARIATORS] at hv
    simp only [List.flatMap_cons, List.flatMap_nil, List.map_cons, List.map_nil,
      List.map_append, List.append_nil, List.mem_append, List.mem_cons,
      List.not_mem_nil, or_false] at hv
    rcases hv with h1 | h1 | h1 <;>
      rcases h1 with h1 | h1 | h1 | h1 | h1 | h1 <;> subst h1 <;> rfl
  · rw [storeByHash_flatten, foldl_setKey_find]
    cases (files.flatMap generateVariations).reverse.find? (fun v => hash v.content == h)
      <;> rfl

/-- C3: a declared source entry carrying truthy inline content whose
recomputed hash differs from the declared `keccak256` is classified invalid
(with both hashes recorded), lands in neither FoundSources nor MissingSources,
and its classification never consults the hash index (the conclusion holds for
every `byHash`). -/
theorem inline_hash_mismatch_recorded_invalid
    (hash : String → String) (metadata : Json) (byHash : List (String × PathContent))
    (p : String) (info : Json) (c : String) (eh : String)
    (hnd : ((jsSources metadata).map Prod.fst).Nodup)
    (hmem : (p, info) ∈ jsSources metadata)
    (hc : inlineContent info = some c)
    (heh : jsGetStr info "keccak256" = some eh)
    (hne : hash c ≠ eh) :
    classifySource hash byHash info =
      SourceFate.invalid (InvalidValue.mk (some eh) (hash c) INVALID_MSG) ∧
    mapGet (rearrangeSources hash metadata byHash).invalidSources p =
      some (InvalidValue.mk (some eh) (hash c) INVALID_MSG) ∧
    mapGet (rearrangeSources hash metadata byHash).foundSources p = none ∧
    mapGet (rearrangeSources hash metadata byHash).missingSources p = none := by
  have hcl : classifySource hash byHash info =
      SourceFate.invalid (InvalidValue.mk (some eh) (hash c) INVALID_MSG) := by
    unfold classifySource
    rw [heh, hc]
    have hcond : (some (hash c) ≠ some eh) = True := by
      simp [hne]
    simp [hcond]
  refine ⟨hcl, ?_, ?_, ?_⟩
  · rw [rearrangeSources_eq hash metadata byHash hnd]
    show mapGet ((jsSources metadata).filterMap _) p = _
    apply mapGet_eq_some_of_mem_nodup
    · exact ((keys_fateMap_sublist fateInvalid hash byHash (jsSources metadata)).nodup hnd)
    · apply List.mem_filterMap.mpr
      exact ⟨(p, info), hmem, by rw [hcl]; rfl⟩
  · rw [rearrangeSources_eq hash metadata byHash hnd]
    show mapGet ((jsSources metadata).filterMap _) p = _
    apply (mapGet_eq_none_iff _ _).mpr
    intro hmemF
    rw [mem_keys_fateMap] at hmemF
    obtain ⟨e, he, hp, hs⟩ := hmemF
    have hinfo : e.2 = info := by
      apply eq_snd_of_mem_keys_nodup (jsSources metadata) p _ _ hnd
      · rw [← hp]; exact he
      · exact hmem
    rw [hinfo, hcl] at hs
    simp [fateFound] at hs
  · rw [rearrangeSources_eq hash metadata byHash hnd]
    show mapGet ((jsSources metadata).filterMap _) p = _
    apply (mapGet_eq_none_iff _ _).mpr
    intro hmemM
    rw [mem_keys_fateMap] at hmemM
    obtain ⟨e, he, hp, hs⟩ := hmemM
    have hinfo : e.2 = info := by
      apply eq_snd_of_mem_keys_nodup (jsSources metadata) p _ _ hnd
      · rw [← hp]; exact he
      · exact hmem
    rw [hinfo, hcl] at hs
    simp [fateMissing] at hs

/-- Witness for C3 at a concrete metadata document whose single source entry
carries inline content that does not hash to the declared value. -/
theorem inline_hash_mismatch_recorded_invalid_witness :
    ((jsSources mdInlineBad).map Prod.fst).Nodup ∧
    (("a.sol", infoInlineBad) ∈ jsSources mdInlineBad) ∧
    inlineContent infoInlineBad = some "code" ∧
    jsGetStr infoInlineBad "keccak256" = some "0xWRONG" ∧
    hashT "code" ≠ "0xWRONG" ∧
    mapGet (rearrangeSources hashT mdInlineBad []).invalidSources "a.sol" =
      some (InvalidValue.mk (some "0xWRONG") (hashT "code") INVALID_MSG) :=
  ⟨by decide, List.mem_singleton.mpr rfl, rfl, rfl, by decide,
   (inline_hash_mismatch_recorded_invalid hashT mdInlineBad [] "a.sol" infoInlineBad
     "code" "0xWRONG" (by decide) (List.mem_singleton.mpr rfl) rfl rfl (by decide)).2.1⟩


/-- Counterexample to C4 as stated: a hardhat build-report file whose embedded
metadata document has two `compilationTarget` entries is accepted by
classification without any check, and the whole invocation succeeds. -/
theorem hardhat_malformed_target_accepted :
    splitFiles [PathContent.mk "build.json" hhBadContent] = .ok ([some mdBad], []) ∧
    jsGet mdBad "settings" = some (Json.obj [("compilationTarget",
      Json.obj [("a.sol", Json.str "A"), ("b.sol", Json.str "B")])]) ∧
    compilationTargetCheck mdBad = false ∧
    checkFiles hashT noZip noMembers tmpNames 100
      [PathBuffer.mk "build.json" hhBadContent] false =
      .ok ([CheckedContract.mk mdBad [] [] []], []) :=
  ⟨rfl, rfl, rfl, rfl⟩

/-- C4 (amended): the exactly-one-`compilationTarget` rule is enforced only
for metadata documents obtained directly or via nested-pattern extraction:
among files free of the hardhat marker, every accepted metadata document
passes the check, and any file classified malformed fails the whole
invocation with an error naming the offending files.  Metadata extracted from
a hardhat build-report file bypasses the check (see the counterexample). -/
theorem splitFiles_target_check_direct_only (files : List PathContent)
    (hnohh : ∀ f ∈ files, strContains f.content HARDHAT_MARKER = false) :
    (∀ mds srcs, splitFiles files = .ok (mds, srcs) →
      ∀ md? ∈ mds, ∃ md, md? = some md ∧ compilationTargetCheck md = true) ∧
    (∀ f ∈ files, classifyFile f = .malformedDoc →
      ∃ mals, splitFiles files = .error (malformedMsg mals) ∧ f.path ∈ mals) := by
  have hdirect : ∀ f ∈ files, classIsDirect (classifyFile f) = true :=
    fun f hf => classifyFile_no_marker_direct f (hnohh f hf)
  have hloop := splitLoop_direct files [] [] [] hdirect
  have hsf : splitFiles files =
      (if !((files.filter (fun f => classIsMal (classifyFile f))).map
          (fun f => f.path)).isEmpty then
        Except.error (malformedMsg ((files.filter (fun f => classIsMal (classifyFile f))).map
          (fun f => f.path)))
      else if (files.filterMap (fun f => (classMd (classifyFile f)).map some)).isEmpty then
        Except.error METADATA_NOT_FOUND_MSG
      else
        Except.ok (files.filterMap (fun f => (classMd (classifyFile f)).map some),
          files.filter (fun f => classIsSrc (classifyFile f)))) := by
    unfold splitFiles
    rw [hloop]
    simp only [List.nil_append]
  constructor
  · intro mds srcs hok md? hmd
    rw [hsf] at hok
    by_cases hmal : ((files.filter (fun f => classIsMal (classifyFile f))).map
        (fun f => f.path)).isEmpty
    · rw [hmal] at hok
      simp only [Bool.not_true, Bool.false_eq_true, if_false] at hok
      by_cases hmds : (files.filterMap (fun f =>
          (classMd (classifyFile f)).map some)).isEmpty
      · rw [if_pos hmds] at hok
        exact absurd hok (by simp)
      · rw [if_neg hmds] at hok
        have hpair := Except.ok.inj hok
        have hmds2 : mds = files.filterMap (fun f => (classMd (classifyFile f)).map some) :=
          (congrArg Prod.fst hpair).symm
        rw [hmds2] at hmd
        obtain ⟨f, hfmem, hfeq⟩ := List.mem_filterMap.mp hmd
        obtain ⟨md, hmd1, hmd2⟩ := Option.map_eq_some'.mp hfeq
        exact ⟨md, hmd2.symm, classifyFile_metadataDoc_check f md
          (classMd_eq_some (classifyFile f) md hmd1)⟩
    · rw [Bool.not_eq_true] at hmal
      rw [hmal] at hok
      simp only [Bool.not_false, if_true] at hok
      exact absurd hok (by simp)
  · intro f hf hcl
    have hmem : f.path ∈ (files.filter (fun g => classIsMal (classifyFile g))).map
        (fun g => g.path) :=
      List.mem_map_of_mem _ (List.mem_filter.mpr ⟨hf, by rw [hcl]; rfl⟩)
    refine ⟨(files.filter (fun g => classIsMal (classifyFile g))).map (fun g => g.path),
      ?_, hmem⟩
    have hne : ((files.filter (fun g => classIsMal (classifyFile g))).map
        (fun g => g.path)).isEmpty = false := by
      cases hM : ((files.filter (fun g => classIsMal (classifyFile g))).map
          (fun g => g.path)).isEmpty
      · rfl
      · exfalso
        rw [List.isEmpty_iff] at hM
        rw [hM] at hmem
        exact List.not_mem_nil _ hmem
    rw [hsf, if_pos (by simp [hne])]

/-- Witness for C4 (amended) at a concrete batch containing one directly
submitted metadata document with two compilation targets: the batch fails with
an error naming the file. -/
theorem splitFiles_target_check_direct_only_witness :
    (∀ f ∈ [PathContent.mk "bad.json" badTargetContent],
      strContains f.content HARDHAT_MARKER = false) ∧
    (∃ mals, splitFiles [PathContent.mk "bad.json" badTargetContent] =
      .error (malformedMsg mals) ∧ "bad.json" ∈ mals) := by
  have hno : ∀ f ∈ [PathContent.mk "bad.json" badTargetContent],
      strContains f.content HARDHAT_MARKER = false := by
    intro f hf
    have := List.mem_singleton.mp hf
    subst this
    rfl
  refine ⟨hno, ?_⟩
  exact (splitFiles_target_check_direct_only
    [PathContent.mk "bad.json" badTargetContent] hno).2
    (PathContent.mk "bad.json" badTargetContent) (List.mem_singleton.mpr rfl) rfl

/-- Counterexample to C5 as stated: with no `ignoring` collector, a
nonexistent path does not abort the invocation — it is silently skipped and
the remaining paths are processed normally. -/
theorem checkPaths_nonexistent_no_abort :
    ghostFS.pathExists "ghost" = false ∧
    checkPaths hashT noZip noMembers tmpNames 100 ghostFS ["ghost", "real"] none =
      (.ok ([CheckedContract.mk mdExA [] [] []], []), none) :=
  ⟨rfl, rfl⟩

/-- C5 (amended): `checkPaths` silently drops every nonexistent path when no
`ignoring` collector is supplied (it is recorded nowhere and causes no error
of its own); when a collector is supplied the nonexistent paths are appended
to it, and in both cases the run continues on the files of the existing
paths. -/
theorem checkPaths_skips_nonexistent (hash : String → String) (isZip : String → Bool)
    (members : String → List PathBuffer) (tmps : Nat → String) (fuel : Nat)
    (fs : FileSystem) (paths : List String) (ig : List String) :
    checkPaths hash isZip members tmps fuel fs paths none =
      (checkFiles hash isZip members tmps fuel (existingFiles fs paths) false, none) ∧
    checkPaths hash isZip members tmps fuel fs paths (some ig) =
      (checkFiles hash isZip members tmps fuel (existingFiles fs paths) false,
       some (ig ++ paths.filter (fun p => !(fs.pathExists p)))) := by
  constructor
  · unfold checkPaths
    rw [collect_foldl fs paths [] none]
    simp
  · unfold checkPaths
    rw [collect_foldl fs paths [] (some ig)]
    simp

theorem useAllSources_eq_of_split (hash : String → String) (isZip : String → Bool)
    (members : String → List PathBuffer) (tmps : Nat → String) (fuel : Nat)
    (contract : CheckedContract) (files : List PathBuffer)
    (mds : List (Option Json)) (srcs : List PathContent)
    (hsplit : splitFiles (parsedOf (traverseAndUnzipFiles isZip members tmps fuel files)) =
      .ok (mds, srcs)) :
    useAllSources hash isZip members tmps fuel contract files =
      .ok (CheckedContract.mk contract.metadata
        (objAssign (pathContentArrayToStringMap srcs) contract.solidity)
        contract.missing contract.invalid) := by
  simp only [useAllSources]
  rw [hsplit]

/-- C6: the widening operation never demotes an already-verified FoundSources
entry — on key collision the verified content wins — and applying it a second
time with the same file set returns the same CheckedContract. -/
theorem useAllSources_preserves_verified_and_idempotent
    (hash : String → String) (isZip : String → Bool)
    (members : String → List PathBuffer) (tmps : Nat → String) (fuel : Nat)
    (contract : CheckedContract) (files : List PathBuffer) (c2 : CheckedContract)
    (hnd : (contract.solidity.map Prod.fst).Nodup)
    (hok : useAllSources hash isZip members tmps fuel contract files = .ok c2) :
    (∀ k v, mapGet contract.solidity k = some v → mapGet c2.solidity k = some v) ∧
    useAllSources hash isZip members tmps fuel c2 files = .ok c2 := by
  cases hsplit : splitFiles (parsedOf (traverseAndUnzipFiles isZip members tmps fuel files)) with
  | error e =>
    simp only [useAllSources] at hok
    rw [hsplit] at hok
    exact absurd hok (by simp)
  | ok pr =>
    obtain ⟨mds, srcs⟩ := pr
    rw [useAllSources_eq_of_split hash isZip members tmps fuel contract files
      mds srcs hsplit] at hok
    have hc2 := (Except.ok.inj hok).symm
    subst hc2
    constructor
    · intro k v hkv
      exact mapGet_objAssign_of_mem contract.solidity
        (pathContentArrayToStringMap srcs) k v hnd hkv
    · rw [useAllSources_eq_of_split hash isZip members tmps fuel _ files mds srcs hsplit]
      rw [objAssign_absorb _ _ (nodup_keys_pathContentArray srcs)]

/-- Witness for C6 at a concrete contract and file set: the submitted file at
the verified path does not overwrite the verified content, and re-widening
returns the same contract. -/
theorem useAllSources_preserves_verified_and_idempotent_witness :
    ((contractW.solidity.map Prod.fst).Nodup) ∧
    useAllSources hashT noZip noMembers tmpNames 100 contractW
      [metaFilePB, srcFilePB] = .ok contractW ∧
    ((∀ k v, mapGet contractW.solidity k = some v → mapGet contractW.solidity k = some v) ∧
     useAllSources hashT noZip noMembers tmpNames 100 contractW
       [metaFilePB, srcFilePB] = .ok contractW) :=
  ⟨by decide, rfl,
   useAllSources_preserves_verified_and_idempotent hashT noZip noMembers tmpNames 100
     contractW [metaFilePB, srcFilePB] contractW (by decide) rfl⟩

/-- C7: as soon as classification succeeds and yields proper (non-null)
metadata documents, `checkFiles` throws nothing and returns exactly one
CheckedContract per metadata document, with all per-source resolution
failures recorded inside the contracts. -/
theorem checkFiles_one_contract_per_metadata
    (hash : String → String) (isZip : String → Bool)
    (members : String → List PathBuffer) (tmps : Nat → String) (fuel : Nat)
    (files : List PathBuffer) (u : Bool) (mds : List Json) (srcs : List PathContent)
    (hsplit : splitFiles (parsedOf (traverseAndUnzipFiles isZip members tmps fuel files)) =
      .ok (mds.map some, srcs)) :
    checkFiles hash isZip members tmps fuel files u =
      .ok (mds.map (contractFor hash (storeByHash hash srcs)),
        if u then extractUnused srcs (usedOf hash (storeByHash hash srcs) mds) else []) ∧
    (mds.map (contractFor hash (storeByHash hash srcs))).length = mds.length := by
  constructor
  · simp only [checkFiles]
    rw [hsplit]
    simp only [checkContracts_map_some]
  · exact List.length_map _ _

/-- Witness for C7 at a concrete batch: one metadata document declaring one
source that is absent from the inputs; the run returns one CheckedContract
with the source recorded in MissingSources, and does not throw. -/
theorem checkFiles_one_contract_per_metadata_witness :
    (splitFiles (parsedOf (traverseAndUnzipFiles noZip noMembers tmpNames 100
      [PathBuffer.mk "m2.json" metaContentMissing])) = .ok ([mdExMissing].map some, [])) ∧
    (checkFiles hashT noZip noMembers tmpNames 100
        [PathBuffer.mk "m2.json" metaContentMissing] false =
      .ok ([mdExMissing].map (contractFor hashT (storeByHash hashT [])),
        if false then extractUnused [] (usedOf hashT (storeByHash hashT []) [mdExMissing])
        else []) ∧
     ([mdExMissing].map (contractFor hashT (storeByHash hashT []))).length =
       [mdExMissing].length) :=
  ⟨rfl, checkFiles_one_contract_per_metadata hashT noZip noMembers tmpNames 100
    [PathBuffer.mk "m2.json" metaContentMissing] false [mdExMissing] [] rfl⟩

/-- C9: `checkFiles` is a pure function of its inputs, and its output — the
CheckedContract list and the unused-file list alike — does not depend on the
transient staging-directory names used while unzipping. -/
theorem checkFiles_ignores_staging_names (hash : String → String)
    (isZip : String → Bool) (members : String → List PathBuffer)
    (tmps1 tmps2 : Nat → String) (fuel : Nat) (files : List PathBuffer) (u : Bool) :
    checkFiles hash isZip members tmps1 fuel files u =
      checkFiles hash isZip members tmps2 fuel files u := by
  simp only [checkFiles]
  rw [traverseAndUnzipFiles_tmps_independent isZip members tmps1 tmps2 fuel files]

/-- C10: widening re-runs classification on the supplied files, so
`useAllSources` throws when the file set contains no metadata document at all
(a set of plain source files), and likewise when it contains a direct
metadata document with a malformed compilationTarget. -/
theorem useAllSources_requires_metadata (hash : String → String)
    (isZip : String → Bool) (members : String → List PathBuffer)
    (tmps : Nat → String) (fuel : Nat) (contract : CheckedContract)
    (files : List PathBuffer) :
    ((∀ f ∈ parsedOf (traverseAndUnzipFiles isZip members tmps fuel files),
        classifyFile f = .sourceDoc) →
      useAllSources hash isZip members tmps fuel contract files =
        .error METADATA_NOT_FOUND_MSG) ∧
    ((∀ f ∈ parsedOf (traverseAndUnzipFiles isZip members tmps fuel files),
        strContains f.content HARDHAT_MARKER = false) →
      ∀ f ∈ parsedOf (traverseAndUnzipFiles isZip members tmps fuel files),
        classifyFile f = .malformedDoc →
      ∃ mals, useAllSources hash isZip members tmps fuel contract files =
        .error (malformedMsg mals) ∧ mals ≠ []) := by
  constructor
  · intro hall
    have hsplit : splitFiles (parsedOf (traverseAndUnzipFiles isZip members tmps fuel
        files)) = .error METADATA_NOT_FOUND_MSG := by
      unfold splitFiles
      rw [splitLoop_all_source _ [] [] [] hall]
      rfl
    simp only [useAllSources]
    rw [hsplit]
  · intro hnohh f hfmem hcl
    obtain ⟨mals, hsf, hpath⟩ := (splitFiles_target_check_direct_only _ hnohh).2 f hfmem hcl
    refine ⟨mals, ?_, List.ne_nil_of_mem hpath⟩
    simp only [useAllSources]
    rw [hsf]

/-- Witness for C10 at a concrete file set consisting of a single plain
source file: widening fails with the metadata-not-found error. -/
theorem useAllSources_requires_metadata_witness :
    (∀ f ∈ parsedOf (traverseAndUnzipFiles noZip noMembers tmpNames 100 [srcFilePB]),
      classifyFile f = FileClass.sourceDoc) ∧
    useAllSources hashT noZip noMembers tmpNames 100 contractW [srcFilePB] =
      .error METADATA_NOT_FOUND_MSG := by
  have hall : ∀ f ∈ parsedOf (traverseAndUnzipFiles noZip noMembers tmpNames 100
      [srcFilePB]), classifyFile f = FileClass.sourceDoc := by
    intro f hf
    have hp : parsedOf (traverseAndUnzipFiles noZip noMembers tmpNames 100 [srcFilePB]) =
        [PathContent.mk "a.sol" "contract A"] := rfl
    rw [hp] at hf
    have := List.mem_singleton.mp hf
    subst this
    rfl
  exact ⟨hall, (useAllSources_requires_metadata hashT noZip noMembers tmpNames 100
    contractW [srcFilePB]).1 hall⟩

/-- Counterexample to C8 as stated: this file parses to an object lacking the
metadata fields, yet it is not classified as a plain source file — its content
contains the hardhat build-report marker, so classification takes the
build-report path and the whole run aborts on the malformed report. -/
theorem object_without_fields_not_classified_source :
    jsonParse hhPlain = some (Json.obj [("x", Json.str "hh-sol-build-info-1")]) ∧
    isMetadata (Json.obj [("x", Json.str "hh-sol-build-info-1")]) = false ∧
    classifyFile (PathContent.mk "info.json" hhPlain) =
      FileClass.hhError "TypeError: Cannot read properties of undefined (reading sources)" ∧
    splitFiles [PathContent.mk "info.json" hhPlain] =
      .error "TypeError: Cannot read properties of undefined (reading sources)" :=
  ⟨rfl, rfl, rfl, rfl⟩

/-- C8 (amended): a file whose content is a JSON-encoded JSON string of an
object with `language == "Solidity"` and truthy `compiler` is recognized by
the metadata extractor after exactly one level of string-in-string unwrapping;
and a file that parses to an object lacking those fields is classified as a
plain source file provided its content does not contain the build-report
marker and does not match the nested-metadata pattern. -/
theorem metadata_unwrap_and_guarded_source_classification
    (f : PathContent) (s : String) (obj : Json) (fs : List (String × Json)) :
    (jsonParse f.content = some (Json.str s) → jsonParse s = some obj →
      isMetadata obj = true → extractMetadataFromString f.content = some obj) ∧
    (jsonParse f.content = some (Json.obj fs) → isMetadata (Json.obj fs) = false →
      strContains f.content HARDHAT_MARKER = false →
      nestedMetadataMatch f.content = none →
      classifyFile f = FileClass.sourceDoc) := by
  constructor
  · intro h1 h2 h3
    unfold extractMetadataFromString
    rw [h1]
    simp only [show isMetadata (Json.str s) = false from rfl, Bool.false_eq_true,
      if_false, show jsToString (Json.str s) = s from rfl, h2, h3, if_true]
  · intro h1 h2 h3 h4
    have hext : extractMetadataFromString f.content = none := by
      unfold extractMetadataFromString
      rw [h1]
      simp only [h2, Bool.false_eq_true, if_false,
        show jsToString (Json.obj fs) = "[object Object]" from rfl,
        show jsonParse "[object Object]" = none from rfl]
    unfold classifyFile
    rw [h3]
    simp only [Bool.false_eq_true, if_false, hext, h4]

/-- Witness for C8 (amended) at a concrete double-encoded metadata document:
one unwrap yields the qualifying object and the extractor returns it. -/
theorem metadata_unwrap_and_guarded_source_classification_witness :
    jsonParse doubleEnc = some (Json.str innerStr) ∧
    jsonParse innerStr = some innerObj ∧
    isMetadata innerObj = true ∧
    extractMetadataFromString doubleEnc = some innerObj :=
  ⟨rfl, rfl, rfl,
   (metadata_unwrap_and_guarded_source_classification
     (PathContent.mk "m.json" doubleEnc) innerStr innerObj []).1 rfl rfl rfl⟩
